import Mathlib

/-!
Verification development for the `jps` repository (jump point search on a
uniform grid).  The definitions below are a shallow embedding of
`jps/jps_refactored.py` and `jps/FastPriorityQueue.py`:

* Python floats are modelled as exact values of `WithTop ℚ` (written `PVal`);
  the only non-finite float the program manipulates is `float('inf')`
  (the `WALKABLE` marker), which is modelled by `⊤`.  The sentinel integers
  `UNINITIALIZED = -2` and `OBSTACLE = -1` are finite values, so the Python
  comparisons between sentinels, costs and `inf` are mirrored exactly.
* Mutable 2-d arrays (`raw_field`, `processed_field`, `parents`) are modelled
  as total functions from coordinates; per the spec the caller pads the grid
  border with obstacle cells so the algorithm never indexes out of bounds,
  and `rawOfGrid` embeds a finite grid into an infinite obstacle plane.
* The `heapq`-based `FastPriorityQueue` is modelled by a verbatim functional
  translation of CPython's `heapq.heappush`/`heapq.heappop` (list-based
  binary min-heap with the hole-shifting `_siftdown`/`_siftup` loops).
* Python `while` loops become fuel-indexed recursion; `none` marks fuel
  exhaustion and is distinguished from every genuine result.
* Exceptions (`ValueError`, `KeyError`) become an explicit error type carried
  next to the (still usable) state, as the Python object survives a raise.
-/

namespace JPS

/-- Grid coordinates, Python int pairs `(x, y)`. -/
abbrev Coord : Type := Int × Int

/-- Python float values used by the program: finite rationals or `+inf`. -/
abbrev PVal : Type := WithTop ℚ

/-- Sentinel for a cell that the classifier has not touched yet (`-2`). -/
def UNINITIALIZED : PVal := ((-2 : ℚ) : PVal)

/-- Sentinel for an obstacle cell (`-1`). -/
def OBSTACLE : PVal := ((-1 : ℚ) : PVal)

/-- Marker for a walkable cell whose cost is not yet known (`float('inf')`). -/
def WALKABLE : PVal := ⊤

/-- Translation of `signum` from `jps_refactored.py`. -/
def signum (x : Int) : Int :=
  if x = 0 then 0
  else if x > 0 then 1
  else -1

/-- Errors the Python code can raise; each carries the message site. -/
inductive Err : Type where
  | invalidStart : Err
  | noGoal : Err
  | noPath : Err
  | keyError : Err
  | indexError : Err
deriving DecidableEq, Repr

/-- Lexicographic strict order on coordinates (Python tuple comparison). -/
def coordLt (a b : Coord) : Prop :=
  a.1 < b.1 ∨ (a.1 = b.1 ∧ a.2 < b.2)

instance (a b : Coord) : Decidable (coordLt a b) :=
  inferInstanceAs (Decidable (_ ∨ _))

/-- One `heapq` entry of `FastPriorityQueue`: the Python list
`[priority, count, task]`. -/
structure Entry : Type where
  priority : PVal
  count : ℕ
  task : Coord
deriving DecidableEq, Repr

/-- Python's list comparison on `[priority, count, task]` entries:
lexicographic, elementwise. -/
def Entry.Lt (a b : Entry) : Prop :=
  a.priority < b.priority ∨
    (a.priority = b.priority ∧
      (a.count < b.count ∨ (a.count = b.count ∧ coordLt a.task b.task)))

instance (a b : Entry) : Decidable (Entry.Lt a b) :=
  inferInstanceAs (Decidable (_ ∨ _))

/-- Default entry used for (always in-bounds) list indexing. -/
def dEntry : Entry := ⟨((0 : ℚ) : PVal), 0, (0, 0)⟩

/-- Read slot `i` of the heap list. -/
def heapGet (l : List Entry) (i : ℕ) : Entry := l.getD i dEntry

/-- Parent index in the implicit binary tree of `heapq`. -/
def parentIdx (i : ℕ) : ℕ := (i - 1) / 2

/-- The `heapq` min-heap invariant: every child is not smaller than its
parent. -/
def HeapInv (l : List Entry) : Prop :=
  ∀ c, c < l.length → 0 < c → ¬ Entry.Lt (heapGet l c) (heapGet l (parentIdx c))

theorem coordLt_trichotomy (a b : Coord) : coordLt a b ∨ a = b ∨ coordLt b a := by
  rcases lt_trichotomy a.1 b.1 with h | h | h
  · exact Or.inl (Or.inl h)
  · rcases lt_trichotomy a.2 b.2 with h2 | h2 | h2
    · exact Or.inl (Or.inr ⟨h, h2⟩)
    · exact Or.inr (Or.inl (Prod.ext h h2))
    · exact Or.inr (Or.inr (Or.inr ⟨h.symm, h2⟩))
  · exact Or.inr (Or.inr (Or.inl h))

theorem coordLt_irrefl (a : Coord) : ¬ coordLt a a := by
  rintro (h | ⟨-, h⟩) <;> exact lt_irrefl _ h

theorem coordLt_trans {a b c : Coord} (h1 : coordLt a b) (h2 : coordLt b c) :
    coordLt a c := by
  rcases h1 with h1 | ⟨e1, h1⟩ <;> rcases h2 with h2 | ⟨e2, h2⟩
  · exact Or.inl (lt_trans h1 h2)
  · exact Or.inl (e2 ▸ h1)
  · exact Or.inl (e1 ▸ h2)
  · exact Or.inr ⟨e1.trans e2, lt_trans h1 h2⟩

theorem entryLt_trichotomy (a b : Entry) :
    Entry.Lt a b ∨ a = b ∨ Entry.Lt b a := by
  rcases lt_trichotomy a.priority b.priority with h | h | h
  · exact Or.inl (Or.inl h)
  · rcases Nat.lt_trichotomy a.count b.count with h2 | h2 | h2
    · exact Or.inl (Or.inr ⟨h, Or.inl h2⟩)
    · rcases coordLt_trichotomy a.task b.task with h3 | h3 | h3
      · exact Or.inl (Or.inr ⟨h, Or.inr ⟨h2, h3⟩⟩)
      · refine Or.inr (Or.inl ?_)
        cases a; cases b
        simp_all
      · exact Or.inr (Or.inr (Or.inr ⟨h.symm, Or.inr ⟨h2.symm, h3⟩⟩))
    · exact Or.inr (Or.inr (Or.inr ⟨h.symm, Or.inl h2⟩))
  · exact Or.inr (Or.inr (Or.inl h))

theorem entryLt_irrefl (a : Entry) : ¬ Entry.Lt a a := by
  rintro (h | ⟨-, h | ⟨-, h⟩⟩)
  · exact absurd h (lt_irrefl _)
  · exact Nat.lt_irrefl _ h
  · exact coordLt_irrefl _ h

theorem entryLt_trans {a b c : Entry} (h1 : Entry.Lt a b) (h2 : Entry.Lt b c) :
    Entry.Lt a c := by
  rcases h1 with h1 | ⟨e1, h1⟩ <;> rcases h2 with h2 | ⟨e2, h2⟩
  · exact Or.inl (lt_trans h1 h2)
  · exact Or.inl (e2 ▸ h1)
  · exact Or.inl (e1 ▸ h2)
  · refine Or.inr ⟨e1.trans e2, ?_⟩
    rcases h1 with h1 | ⟨f1, h1⟩ <;> rcases h2 with h2 | ⟨f2, h2⟩
    · exact Or.inl (Nat.lt_trans h1 h2)
    · exact Or.inl (f2 ▸ h1)
    · exact Or.inl (f1 ▸ h2)
    · exact Or.inr ⟨f1.trans f2, coordLt_trans h1 h2⟩

theorem entryLt_asymm {a b : Entry} (h : Entry.Lt a b) : ¬ Entry.Lt b a :=
  fun h' => entryLt_irrefl a (entryLt_trans h h')

theorem entryLt_not_iff {a b : Entry} :
    ¬ Entry.Lt a b ↔ (a = b ∨ Entry.Lt b a) := by
  constructor
  · intro h
    rcases entryLt_trichotomy a b with h1 | h1 | h1
    · exact absurd h1 h
    · exact Or.inl h1
    · exact Or.inr h1
  · rintro (rfl | h1)
    · exact entryLt_irrefl a
    · exact entryLt_asymm h1

theorem entryLt_not_comp {a b c : Entry}
    (h1 : ¬ Entry.Lt a b) (h2 : ¬ Entry.Lt b c) : ¬ Entry.Lt a c := by
  rcases entryLt_not_iff.mp h1 with rfl | h1
  · exact h2
  · rcases entryLt_not_iff.mp h2 with rfl | h2
    · exact fun h => entryLt_asymm h h1
    · exact fun h => entryLt_irrefl a (entryLt_trans h (entryLt_trans h2 h1))

theorem heapGet_set_self {l : List Entry} {i : ℕ} (v : Entry) (h : i < l.length) :
    heapGet (l.set i v) i = v := by
  unfold heapGet
  rw [List.getD_eq_getElem?_getD, List.getElem?_set_self (by simpa using h)]
  rfl

theorem heapGet_set_ne {l : List Entry} {i j : ℕ} (v : Entry) (h : i ≠ j) :
    heapGet (l.set i v) j = heapGet l j := by
  unfold heapGet
  rw [List.getD_eq_getElem?_getD, List.getElem?_set_ne h, ← List.getD_eq_getElem?_getD]

theorem heapGet_append_lt {l : List Entry} (e : Entry) {i : ℕ} (h : i < l.length) :
    heapGet (l ++ [e]) i = heapGet l i := by
  unfold heapGet
  rw [List.getD_eq_getElem?_getD, List.getElem?_append, if_pos (by simpa using h),
    ← List.getD_eq_getElem?_getD]

theorem heapGet_append_len (l : List Entry) (e : Entry) :
    heapGet (l ++ [e]) l.length = e := by
  unfold heapGet
  rw [List.getD_eq_getElem?_getD, List.getElem?_append_right (le_refl _)]
  simp

theorem heapGet_dropLast {l : List Entry} {i : ℕ} (h : i < l.length - 1) :
    heapGet l.dropLast i = heapGet l i := by
  unfold heapGet
  rw [List.getD_eq_getElem?_getD, List.getD_eq_getElem?_getD]
  congr 1
  rw [List.getElem?_eq_getElem (by simpa using h), List.getElem?_eq_getElem (by omega)]
  simp [List.getElem_dropLast]

theorem heapList_ext {l₁ l₂ : List Entry} (hl : l₁.length = l₂.length)
    (h : ∀ i, i < l₁.length → heapGet l₁ i = heapGet l₂ i) : l₁ = l₂ := by
  apply List.ext_getElem hl
  intro i h1 h2
  have := h i h1
  unfold heapGet at this
  rwa [List.getD_eq_getElem?_getD, List.getD_eq_getElem?_getD,
    List.getElem?_eq_getElem h1, List.getElem?_eq_getElem h2] at this

theorem set_heapGet_self {l : List Entry} {i : ℕ} {v : Entry}
    (h : i < l.length) (hv : heapGet l i = v) : l.set i v = l := by
  apply heapList_ext (by simp)
  intro j hj
  rcases eq_or_ne i j with rfl | hne
  · rw [heapGet_set_self v (by simpa using hj), hv]
  · exact heapGet_set_ne v hne

theorem cons_set_perm (a b : Entry) :
    ∀ (l : List Entry) (k : ℕ), k < l.length →
      (a :: l.set k b).Perm (b :: l.set k a)
  | x :: xs, 0, _ => by
    simpa using List.Perm.swap b a xs
  | x :: xs, k + 1, hk => by
    simp only [List.set_cons_succ]
    exact (List.Perm.swap x a _).trans
      ((List.Perm.cons x (cons_set_perm a b xs k (by simpa using hk))).trans
        (List.Perm.swap b x _))

theorem set_set_perm_lt (a b : Entry) :
    ∀ (l : List Entry) (i j : ℕ), i < j → j < l.length →
      ((l.set i a).set j b).Perm ((l.set i b).set j a)
  | x :: xs, 0, j + 1, _, hj => by
    simp only [List.set_cons_zero, List.set_cons_succ]
    exact cons_set_perm a b xs j (by simpa using hj)
  | x :: xs, i + 1, j + 1, hij, hj => by
    simp only [List.set_cons_succ]
    exact List.Perm.cons x
      (set_set_perm_lt a b xs i j (by omega) (by simpa using hj))

/-- Swap the two written values of a double `set`, up to permutation. -/
theorem set_set_perm (a b : Entry) (l : List Entry) (i j : ℕ) (hne : i ≠ j)
    (hi : i < l.length) (hj : j < l.length) :
    ((l.set i a).set j b).Perm ((l.set i b).set j a) := by
  rcases lt_or_gt_of_ne hne with h | h
  · exact set_set_perm_lt a b l i j h hj
  · rw [List.set_comm _ _ _ hne, List.set_comm b a _ hne]
    exact set_set_perm_lt b a l j i h hi

theorem parentIdx_lt {c : ℕ} (h : 0 < c) : parentIdx c < c := by
  unfold parentIdx
  omega

/-- In a `heapq` min-heap, the root is not greater than any element. -/
theorem heapInv_root_min {l : List Entry} (hinv : HeapInv l) :
    ∀ i, i < l.length → ¬ Entry.Lt (heapGet l i) (heapGet l 0) := by
  intro i
  induction i using Nat.strong_induction_on with
  | _ i ih =>
    intro hi
    rcases Nat.eq_zero_or_pos i with rfl | hpos
    · exact entryLt_irrefl _
    · exact entryLt_not_comp (hinv i hi hpos)
        (ih (parentIdx i) (parentIdx_lt hpos) (lt_trans (parentIdx_lt hpos) hi))

/-- Loop of CPython's `heapq._siftdown(heap, startpos, pos)`: bubble the hole
at `pos` toward the root, shifting larger parents down, then drop `newitem`
into the final hole. -/
def siftdownLoop (newitem : Entry) (startpos : ℕ) (heap : List Entry) (pos : ℕ) :
    List Entry :=
  if h : startpos < pos then
    let parentpos := parentIdx pos
    let parent := heapGet heap parentpos
    if Entry.Lt newitem parent then
      siftdownLoop newitem startpos (heap.set pos parent) parentpos
    else heap.set pos newitem
  else heap.set pos newitem
termination_by pos
decreasing_by
  exact Nat.lt_of_le_of_lt (Nat.div_le_self _ _) (by omega)

/-- CPython's `heapq._siftdown`, which reads `newitem` from `heap[pos]`. -/
def siftdown (heap : List Entry) (startpos pos : ℕ) : List Entry :=
  siftdownLoop (heapGet heap pos) startpos heap pos

/-- Correctness of the `_siftdown` loop (with `startpos = 0`, the only value
the program uses): starting from a heap with a hole at `pos` — every edge not
touching `pos` ordered, the hole's children at least `newitem`, and the
hole's children at least the hole's parent — the loop produces a heap that
is a permutation of writing `newitem` into the hole. -/
theorem siftdownLoop_spec (newitem : Entry) :
    ∀ (pos : ℕ) (heap : List Entry), pos < heap.length →
    (∀ c, c < heap.length → 0 < c → c ≠ pos → parentIdx c ≠ pos →
        ¬ Entry.Lt (heapGet heap c) (heapGet heap (parentIdx c))) →
    (∀ c, c < heap.length → 0 < c → parentIdx c = pos →
        ¬ Entry.Lt (heapGet heap c) newitem) →
    (0 < pos → ∀ c, c < heap.length → 0 < c → parentIdx c = pos →
        ¬ Entry.Lt (heapGet heap c) (heapGet heap (parentIdx pos))) →
    HeapInv (siftdownLoop newitem 0 heap pos) ∧
    (siftdownLoop newitem 0 heap pos).length = heap.length ∧
    (siftdownLoop newitem 0 heap pos).Perm (heap.set pos newitem) := by
  intro pos
  induction pos using Nat.strong_induction_on with
  | _ pos ih =>
    intro heap hlen H2 H4 H5
    rw [siftdownLoop]
    by_cases hpos : 0 < pos
    · rw [dif_pos hpos]
      have hpp : parentIdx pos < pos := parentIdx_lt hpos
      have hppne : parentIdx pos ≠ pos := Nat.ne_of_lt hpp
      have hpplen : parentIdx pos < heap.length := lt_trans hpp hlen
      by_cases hlt : Entry.Lt newitem (heapGet heap (parentIdx pos))
      · rw [if_pos hlt]
        have hlen' : parentIdx pos < (heap.set pos (heapGet heap (parentIdx pos))).length := by
          simpa using hpplen
        have hget : ∀ x, x ≠ pos →
            heapGet (heap.set pos (heapGet heap (parentIdx pos))) x = heapGet heap x :=
          fun x hx => heapGet_set_ne _ (Ne.symm hx)
        have hgetp : heapGet (heap.set pos (heapGet heap (parentIdx pos))) pos =
            heapGet heap (parentIdx pos) := heapGet_set_self _ hlen
        obtain ⟨inv', len', perm'⟩ := ih (parentIdx pos) hpp
          (heap.set pos (heapGet heap (parentIdx pos))) hlen'
          (by
            intro c hc hc0 hcne hcp
            have hclen : c < heap.length := by simpa using hc
            rcases eq_or_ne c pos with rfl | hcpos
            · exact absurd rfl hcp
            · rw [hget c hcpos]
              rcases eq_or_ne (parentIdx c) pos with hpc | hpc
              · rw [hpc, hgetp]
                exact H5 hpos c hclen hc0 hpc
              · rw [hget _ hpc]
                exact H2 c hclen hc0 hcpos hpc)
          (by
            intro c hc hc0 hcp
            have hclen : c < heap.length := by simpa using hc
            rcases eq_or_ne c pos with rfl | hcpos
            · rw [hgetp]
              exact entryLt_asymm hlt
            · rw [hget c hcpos]
              intro habs
              exact H2 c hclen hc0 hcpos (hcp ▸ hppne)
                (hcp ▸ entryLt_trans habs hlt))
          (by
            intro hpp0 c hc hc0 hcp
            have hclen : c < heap.length := by simpa using hc
            have hgne : parentIdx (parentIdx pos) ≠ pos :=
              Nat.ne_of_lt (lt_trans (parentIdx_lt hpp0) hpp)
            have hpledge : ¬ Entry.Lt (heapGet heap (parentIdx pos))
                (heapGet heap (parentIdx (parentIdx pos))) :=
              H2 (parentIdx pos) hpplen hpp0 hppne hgne
            rw [hget _ hgne]
            rcases eq_or_ne c pos with rfl | hcpos
            · rw [hgetp]
              exact hpledge
            · rw [hget c hcpos]
              exact entryLt_not_comp
                (H2 c hclen hc0 hcpos (hcp ▸ hppne)) (hcp ▸ hpledge))
        refine ⟨inv', by simpa using len', ?_⟩
        have hswap : ((heap.set pos (heapGet heap (parentIdx pos))).set
            (parentIdx pos) newitem).Perm
            ((heap.set pos newitem).set (parentIdx pos) (heapGet heap (parentIdx pos))) :=
          set_set_perm _ _ heap pos (parentIdx pos) (Ne.symm hppne) hlen hpplen
        have heq : (heap.set pos newitem).set (parentIdx pos)
            (heapGet heap (parentIdx pos)) = heap.set pos newitem :=
          set_heapGet_self (by simpa using hpplen)
            (heapGet_set_ne _ (Ne.symm hppne))
        exact perm'.trans (heq ▸ hswap)
      · rw [if_neg hlt]
        refine ⟨?_, by simp, List.Perm.refl _⟩
        intro c hc hc0
        have hclen : c < heap.length := by simpa using hc
        rcases eq_or_ne c pos with rfl | hcpos
        · rw [heapGet_set_self _ hlen, heapGet_set_ne _ (Ne.symm hppne)]
          exact hlt
        · rw [heapGet_set_ne _ (Ne.symm hcpos)]
          rcases eq_or_ne (parentIdx c) pos with hpc | hpc
          · rw [hpc, heapGet_set_self _ hlen]
            exact H4 c hclen hc0 hpc
          · rw [heapGet_set_ne _ (Ne.symm hpc)]
            exact H2 c hclen hc0 hcpos hpc
    · rw [dif_neg hpos]
      have hp0 : pos = 0 := by omega
      subst hp0
      refine ⟨?_, by simp, List.Perm.refl _⟩
      intro c hc hc0
      have hclen : c < heap.length := by simpa using hc
      have hcne : c ≠ 0 := Nat.pos_iff_ne_zero.mp hc0
      rw [heapGet_set_ne _ (Ne.symm hcne)]
      rcases eq_or_ne (parentIdx c) 0 with hpc | hpc
      · rw [hpc, heapGet_set_self _ hlen]
        exact H4 c hclen hc0 hpc
      · rw [heapGet_set_ne _ (Ne.symm hpc)]
        exact H2 c hclen hc0 hcne hpc

/-- Loop of CPython's `heapq._siftup(heap, pos)`: move the hole down to a
leaf, always promoting the smaller child, then place `newitem` and restore
with `_siftdown`. -/
def siftupLoop (endpos : ℕ) (newitem : Entry) (heap : List Entry) (pos : ℕ) :
    List Entry :=
  if h : 2 * pos + 1 < endpos then
    if 2 * pos + 1 + 1 < endpos ∧
        ¬ Entry.Lt (heapGet heap (2 * pos + 1)) (heapGet heap (2 * pos + 1 + 1)) then
      siftupLoop endpos newitem (heap.set pos (heapGet heap (2 * pos + 1 + 1)))
        (2 * pos + 1 + 1)
    else
      siftupLoop endpos newitem (heap.set pos (heapGet heap (2 * pos + 1)))
        (2 * pos + 1)
  else
    siftdownLoop newitem 0 (heap.set pos newitem) pos
termination_by endpos - pos
decreasing_by
  all_goals omega

theorem parentIdx_left (pos : ℕ) : parentIdx (2 * pos + 1) = pos := by
  unfold parentIdx
  omega

theorem parentIdx_right (pos : ℕ) : parentIdx (2 * pos + 1 + 1) = pos := by
  unfold parentIdx
  omega

theorem children_of {c pos : ℕ} (h : parentIdx c = pos) (hc : 0 < c) :
    c = 2 * pos + 1 ∨ c = 2 * pos + 1 + 1 := by
  unfold parentIdx at h
  omega

/-- Correctness of the `_siftup` loop: starting from a heap whose root slot
`pos` is a hole (edges not touching `pos` ordered; the hole's children at
least the hole's parent), the bottom-up descent followed by `_siftdown`
rebuilds a heap that is a permutation of writing `newitem` into the hole. -/
theorem siftupLoop_spec :
    ∀ (endpos : ℕ) (newitem : Entry) (heap : List Entry) (pos : ℕ),
    endpos = heap.length → pos < endpos →
    (∀ c, c < heap.length → 0 < c → c ≠ pos → parentIdx c ≠ pos →
        ¬ Entry.Lt (heapGet heap c) (heapGet heap (parentIdx c))) →
    (0 < pos → ∀ c, c < heap.length → 0 < c → parentIdx c = pos →
        ¬ Entry.Lt (heapGet heap c) (heapGet heap (parentIdx pos))) →
    HeapInv (siftupLoop endpos newitem heap pos) ∧
    (siftupLoop endpos newitem heap pos).length = heap.length ∧
    (siftupLoop endpos newitem heap pos).Perm (heap.set pos newitem) := by
  intro endpos newitem heap pos
  induction heap, pos using siftupLoop.induct endpos newitem with
  | case1 heap pos hchild hsel ih =>
    intro hend hpos H2 H5
    rw [siftupLoop, dif_pos hchild, if_pos hsel]
    have hself : 2 * pos + 1 + 1 < heap.length := by omega
    have hps : pos < 2 * pos + 1 + 1 := by omega
    have hpsne : pos ≠ 2 * pos + 1 + 1 := by omega
    have hpsel : parentIdx (2 * pos + 1 + 1) = pos := parentIdx_right pos
    have hget : ∀ x, x ≠ pos →
        heapGet (heap.set pos (heapGet heap (2 * pos + 1 + 1))) x = heapGet heap x :=
      fun x hx => heapGet_set_ne _ (Ne.symm hx)
    have hgetp : heapGet (heap.set pos (heapGet heap (2 * pos + 1 + 1))) pos =
        heapGet heap (2 * pos + 1 + 1) := heapGet_set_self _ (by omega)
    obtain ⟨inv', len', perm'⟩ := ih (by simpa using hend) (by omega)
      (by
        intro c hc hc0 hcne hcp
        have hclen : c < heap.length := by simpa using hc
        rcases eq_or_ne pos c with rfl | hcpos
        · rw [hgetp]
          have hpp : parentIdx pos < pos := parentIdx_lt hc0
          rw [hget _ (Nat.ne_of_lt hpp)]
          exact H5 hc0 (2 * pos + 1 + 1) hself (by omega) hpsel
        · rw [hget c (Ne.symm hcpos)]
          rcases eq_or_ne (parentIdx c) pos with hpc | hpc
          · rw [hpc, hgetp]
            rcases children_of hpc hc0 with rfl | rfl
            · exact hsel.2
            · exact absurd rfl hcne
          · rw [hget _ hpc]
            exact H2 c hclen hc0 (Ne.symm hcpos) hpc)
      (by
        intro hsp0 c hc hc0 hcp
        have hclen : c < heap.length := by simpa using hc
        have hcgt : 2 * pos + 1 + 1 < c := hcp ▸ parentIdx_lt hc0
        have hcpos : c ≠ pos := by omega
        have hpcne : parentIdx c ≠ pos := by rw [hcp]; omega
        rw [hpsel, hgetp, hget c hcpos]
        have h2c := H2 c hclen hc0 hcpos hpcne
        rwa [hcp] at h2c)
    refine ⟨inv', by simpa using len', ?_⟩
    have hswap : ((heap.set pos (heapGet heap (2 * pos + 1 + 1))).set
        (2 * pos + 1 + 1) newitem).Perm
        ((heap.set pos newitem).set (2 * pos + 1 + 1) (heapGet heap (2 * pos + 1 + 1))) :=
      set_set_perm _ _ heap pos (2 * pos + 1 + 1) hpsne (by omega) hself
    have heq : (heap.set pos newitem).set (2 * pos + 1 + 1)
        (heapGet heap (2 * pos + 1 + 1)) = heap.set pos newitem :=
      set_heapGet_self (by simpa using hself) (heapGet_set_ne _ hpsne)
    exact perm'.trans (heq ▸ hswap)
  | case2 heap pos hchild hsel ih =>
    intro hend hpos H2 H5
    rw [siftupLoop, dif_pos hchild, if_neg hsel]
    have hself : 2 * pos + 1 < heap.length := by omega
    have hps : pos < 2 * pos + 1 := by omega
    have hpsne : pos ≠ 2 * pos + 1 := by omega
    have hpsel : parentIdx (2 * pos + 1) = pos := parentIdx_left pos
    have hget : ∀ x, x ≠ pos →
        heapGet (heap.set pos (heapGet heap (2 * pos + 1))) x = heapGet heap x :=
      fun x hx => heapGet_set_ne _ (Ne.symm hx)
    have hgetp : heapGet (heap.set pos (heapGet heap (2 * pos + 1))) pos =
        heapGet heap (2 * pos + 1) := heapGet_set_self _ (by omega)
    obtain ⟨inv', len', perm'⟩ := ih (by simpa using hend) (by omega)
      (by
        intro c hc hc0 hcne hcp
        have hclen : c < heap.length := by simpa using hc
        rcases eq_or_ne pos c with rfl | hcpos
        · rw [hgetp]
          have hpp : parentIdx pos < pos := parentIdx_lt hc0
          rw [hget _ (Nat.ne_of_lt hpp)]
          exact H5 hc0 (2 * pos + 1) hself (by omega) hpsel
        · rw [hget c (Ne.symm hcpos)]
          rcases eq_or_ne (parentIdx c) pos with hpc | hpc
          · rw [hpc, hgetp]
            rcases children_of hpc hc0 with rfl | rfl
            · exact absurd rfl hcne
            · rcases not_and_or.mp hsel with hor | hor
              · exact absurd (by omega) hor
              · exact entryLt_asymm (not_not.mp hor)
          · rw [hget _ hpc]
            exact H2 c hclen hc0 (Ne.symm hcpos) hpc)
      (by
        intro hsp0 c hc hc0 hcp
        have hclen : c < heap.length := by simpa using hc
        have hcgt : 2 * pos + 1 < c := hcp ▸ parentIdx_lt hc0
        have hcpos : c ≠ pos := by omega
        have hpcne : parentIdx c ≠ pos := by rw [hcp]; omega
        rw [hpsel, hgetp, hget c hcpos]
        have h2c := H2 c hclen hc0 hcpos hpcne
        rwa [hcp] at h2c)
    refine ⟨inv', by simpa using len', ?_⟩
    have hswap : ((heap.set pos (heapGet heap (2 * pos + 1))).set
        (2 * pos + 1) newitem).Perm
        ((heap.set pos newitem).set (2 * pos + 1) (heapGet heap (2 * pos + 1))) :=
      set_set_perm _ _ heap pos (2 * pos + 1) hpsne (by omega) hself
    have heq : (heap.set pos newitem).set (2 * pos + 1)
        (heapGet heap (2 * pos + 1)) = heap.set pos newitem :=
      set_heapGet_self (by simpa using hself) (heapGet_set_ne _ hpsne)
    exact perm'.trans (heq ▸ hswap)
  | case3 heap pos hchild =>
    intro hend hpos H2 H5
    rw [siftupLoop, dif_neg hchild]
    have hlen : pos < heap.length := by omega
    obtain ⟨inv', len', perm'⟩ := siftdownLoop_spec newitem pos
      (heap.set pos newitem) (by simpa using hlen)
      (by
        intro c hc hc0 hcne hcp
        rw [heapGet_set_ne _ (Ne.symm hcne), heapGet_set_ne _ (Ne.symm hcp)]
        exact H2 c (by simpa using hc) hc0 hcne hcp)
      (by
        intro c hc hc0 hcp
        have hclen : c < heap.length := by simpa using hc
        rcases children_of hcp hc0 with rfl | rfl <;> omega)
      (by
        intro hp0 c hc hc0 hcp
        have hclen : c < heap.length := by simpa using hc
        rcases children_of hcp hc0 with rfl | rfl <;> omega)
    refine ⟨inv', by simpa using len', perm'.trans ?_⟩
    rw [List.set_set]

/-- Structural-recursion form of `siftdownLoop` (the hole index strictly
decreases, so `pos + 1` steps always suffice); it exists so that concrete
heaps evaluate by kernel reduction. -/
def siftdownGo (newitem : Entry) (startpos : ℕ) :
    ℕ → List Entry → ℕ → List Entry
  | 0, heap, pos => heap.set pos newitem
  | fuel + 1, heap, pos =>
    if startpos < pos then
      if Entry.Lt newitem (heapGet heap (parentIdx pos)) then
        siftdownGo newitem startpos fuel
          (heap.set pos (heapGet heap (parentIdx pos))) (parentIdx pos)
      else heap.set pos newitem
    else heap.set pos newitem

theorem siftdownGo_eq (newitem : Entry) (startpos : ℕ) :
    ∀ (fuel : ℕ) (heap : List Entry) (pos : ℕ), pos < fuel →
    siftdownGo newitem startpos fuel heap pos =
      siftdownLoop newitem startpos heap pos := by
  intro fuel
  induction fuel with
  | zero =>
    intro heap pos h
    exact absurd h (by omega)
  | succ fuel ih =>
    intro heap pos h
    rw [siftdownLoop]
    by_cases hsp : startpos < pos
    · rw [dif_pos hsp]
      simp only [siftdownGo, if_pos hsp]
      by_cases hlt : Entry.Lt newitem (heapGet heap (parentIdx pos))
      · rw [if_pos hlt, if_pos hlt]
        exact ih _ (parentIdx pos)
          (lt_of_lt_of_le (parentIdx_lt (by omega)) (by omega))
      · rw [if_neg hlt, if_neg hlt]
    · rw [dif_neg hsp]
      simp only [siftdownGo, if_neg hsp]

/-- Structural-recursion form of `siftupLoop` (the hole index strictly
increases toward `endpos`, so `endpos - pos` steps suffice). -/
def siftupGo (endpos : ℕ) (newitem : Entry) :
    ℕ → List Entry → ℕ → List Entry
  | 0, heap, pos => siftdownGo newitem 0 (pos + 1) (heap.set pos newitem) pos
  | fuel + 1, heap, pos =>
    if 2 * pos + 1 < endpos then
      if 2 * pos + 1 + 1 < endpos ∧
          ¬ Entry.Lt (heapGet heap (2 * pos + 1))
            (heapGet heap (2 * pos + 1 + 1)) then
        siftupGo endpos newitem fuel
          (heap.set pos (heapGet heap (2 * pos + 1 + 1))) (2 * pos + 1 + 1)
      else
        siftupGo endpos newitem fuel
          (heap.set pos (heapGet heap (2 * pos + 1))) (2 * pos + 1)
    else siftdownGo newitem 0 (pos + 1) (heap.set pos newitem) pos

theorem siftupGo_eq (endpos : ℕ) (newitem : Entry) :
    ∀ (fuel : ℕ) (heap : List Entry) (pos : ℕ), endpos ≤ pos + fuel →
    siftupGo endpos newitem fuel heap pos =
      siftupLoop endpos newitem heap pos := by
  intro fuel
  induction fuel with
  | zero =>
    intro heap pos h
    rw [siftupLoop]
    rw [dif_neg (by omega : ¬ 2 * pos + 1 < endpos)]
    simp only [siftupGo]
    exact siftdownGo_eq newitem 0 (pos + 1) _ pos (Nat.lt_succ_self pos)
  | succ fuel ih =>
    intro heap pos h
    rw [siftupLoop]
    by_cases h1 : 2 * pos + 1 < endpos
    · rw [dif_pos h1]
      simp only [siftupGo, if_pos h1]
      by_cases h2 : 2 * pos + 1 + 1 < endpos ∧
          ¬ Entry.Lt (heapGet heap (2 * pos + 1)) (heapGet heap (2 * pos + 1 + 1))
      · simp only [if_pos h2]
        exact ih _ (2 * pos + 1 + 1) (by omega)
      · simp only [if_neg h2]
        exact ih _ (2 * pos + 1) (by omega)
    · rw [dif_neg h1]
      simp only [siftupGo, if_neg h1]
      exact siftdownGo_eq newitem 0 (pos + 1) _ pos (Nat.lt_succ_self pos)

/-- CPython's `heapq.heappush`. -/
def heappush (heap : List Entry) (item : Entry) : List Entry :=
  siftdownGo item 0 (heap.length + 1) (heap ++ [item]) heap.length

theorem heappush_eq_loop (heap : List Entry) (item : Entry) :
    heappush heap item = siftdownLoop item 0 (heap ++ [item]) heap.length :=
  siftdownGo_eq item 0 (heap.length + 1) (heap ++ [item]) heap.length
    (Nat.lt_succ_self _)

/-- CPython's `heapq.heappop` on a nonempty heap: return the root, move the
last element to the root and sift it up.  (On the empty list Python raises
`IndexError`; the caller `pop_task` guards emptiness.) -/
def heappop (heap : List Entry) : Entry × List Entry :=
  let lastelt := (heap.getLast?).getD dEntry
  let rest := heap.dropLast
  if rest = [] then (lastelt, [])
  else
    let returnitem := heapGet rest 0
    let rest' := rest.set 0 lastelt
    (returnitem, siftupGo rest'.length (heapGet rest' 0) rest'.length rest' 0)

/-- `heappush` preserves the heap invariant and adds exactly the new item. -/
theorem heappush_spec {l : List Entry} (hinv : HeapInv l) (e : Entry) :
    HeapInv (heappush l e) ∧ (heappush l e).length = l.length + 1 ∧
    (heappush l e).Perm (e :: l) := by
  rw [heappush_eq_loop]
  obtain ⟨inv', len', perm'⟩ := siftdownLoop_spec e l.length (l ++ [e])
    (by simp)
    (by
      intro c hc hc0 hcne hcp
      have hclen : c < l.length := by
        simp only [List.length_append, List.length_cons, List.length_nil] at hc
        omega
      have hplen : parentIdx c < l.length := lt_trans (parentIdx_lt hc0) hclen
      rw [heapGet_append_lt _ hclen, heapGet_append_lt _ hplen]
      exact hinv c hclen hc0)
    (by
      intro c hc hc0 hcp
      simp only [List.length_append, List.length_cons, List.length_nil] at hc
      rcases children_of hcp hc0 with rfl | rfl <;> omega)
    (by
      intro hp0 c hc hc0 hcp
      simp only [List.length_append, List.length_cons, List.length_nil] at hc
      rcases children_of hcp hc0 with rfl | rfl <;> omega)
  refine ⟨inv', by simpa using len', perm'.trans ?_⟩
  have heq : (l ++ [e]).set l.length e = l ++ [e] :=
    set_heapGet_self (by simp) (heapGet_append_len l e)
  rw [heq]
  exact List.perm_append_singleton e l

/-- `heappop` returns the root — a minimal entry — and rebuilds a heap
holding exactly the remaining entries. -/
theorem heappop_spec {l : List Entry} (hinv : HeapInv l) (hne : l ≠ []) :
    (heappop l).1 = heapGet l 0 ∧ HeapInv (heappop l).2 ∧
    ((heappop l).1 :: (heappop l).2).Perm l := by
  by_cases hrest : l.dropLast = []
  · have hlen1 : l.length = 1 := by
      have h1 := List.length_dropLast l
      rw [hrest] at h1
      have h2 : l.length ≠ 0 := fun h => hne (List.length_eq_zero.mp h)
      simp at h1
      omega
    obtain ⟨x, rfl⟩ := List.length_eq_one.mp hlen1
    refine ⟨by simp [heappop, heapGet], ?_, by simp [heappop]⟩
    intro c hc hc0
    rw [show (heappop [x]).2 = [] by simp [heappop]] at hc
    simp at hc
  · have hlen2 : 2 ≤ l.length := by
      have h1 := List.length_dropLast l
      have h2 : l.dropLast.length ≠ 0 :=
        fun h => hrest (List.length_eq_zero.mp h)
      omega
    have hlast : (l.getLast?).getD dEntry = l.getLast hne := by
      rw [List.getLast?_eq_getLast l hne]
      rfl
    have hroot : heapGet l.dropLast 0 = heapGet l 0 :=
      heapGet_dropLast (by omega)
    have hlen' : 0 < (l.dropLast.set 0 ((l.getLast?).getD dEntry)).length := by
      simp only [List.length_set, List.length_dropLast]
      omega
    obtain ⟨inv', len', perm'⟩ := siftupLoop_spec
      (l.dropLast.set 0 ((l.getLast?).getD dEntry)).length
      (heapGet (l.dropLast.set 0 ((l.getLast?).getD dEntry)) 0)
      (l.dropLast.set 0 ((l.getLast?).getD dEntry)) 0 rfl hlen'
      (by
        intro c hc hc0 hcne hcp
        have hclen : c < l.length - 1 := by
          simp only [List.length_set, List.length_dropLast] at hc
          omega
        have hplen : parentIdx c < l.length - 1 :=
          lt_trans (parentIdx_lt hc0) hclen
        rw [heapGet_set_ne _ (Ne.symm hcne), heapGet_set_ne _ (Ne.symm hcp),
          heapGet_dropLast hclen, heapGet_dropLast hplen]
        exact hinv c (by omega) hc0)
      (by
        intro h0 _ _ _ _
        exact absurd h0 (lt_irrefl 0))
    have hself : (l.dropLast.set 0 ((l.getLast?).getD dEntry)).set 0
        (heapGet (l.dropLast.set 0 ((l.getLast?).getD dEntry)) 0) =
        l.dropLast.set 0 ((l.getLast?).getD dEntry) :=
      set_heapGet_self hlen' rfl
    rw [hself] at perm'
    have hpop1 : (heappop l).1 = heapGet l.dropLast 0 := by
      rw [heappop]
      simp only [if_neg hrest]
    have hpop2 : (heappop l).2 = siftupLoop
        (l.dropLast.set 0 ((l.getLast?).getD dEntry)).length
        (heapGet (l.dropLast.set 0 ((l.getLast?).getD dEntry)) 0)
        (l.dropLast.set 0 ((l.getLast?).getD dEntry)) 0 := by
      rw [heappop]
      simp only [if_neg hrest]
      exact siftupGo_eq _ _ _ _ 0 (by omega)
    refine ⟨hpop1.trans hroot, hpop2 ▸ inv', ?_⟩
    rw [hpop1, hpop2]
    refine ((perm'.cons (heapGet l.dropLast 0)).trans ?_ : _)
    obtain ⟨r0, rtail, hrt⟩ := List.exists_cons_of_ne_nil hrest
    have hl : l = l.dropLast ++ [l.getLast hne] :=
      (List.dropLast_append_getLast hne).symm
    have hcat : (r0 :: rtail) ++ [l.getLast hne] = l := by
      rw [← hrt]
      exact hl.symm
    rw [hlast, hrt]
    have hr0 : heapGet (r0 :: rtail) 0 = r0 := by simp [heapGet]
    rw [hr0]
    simp only [List.set_cons_zero]
    have main : (r0 :: l.getLast hne :: rtail).Perm
        ((r0 :: rtail) ++ [l.getLast hne]) := by
      simp only [List.cons_append]
      exact List.Perm.cons r0 (List.perm_append_singleton _ rtail).symm
    rw [hcat] at main
    exact main

/-- The `FastPriorityQueue` object: a heap list plus the `itertools.count()`
counter. -/
structure FPQ : Type where
  pq : List Entry
  counter : ℕ
deriving DecidableEq, Repr

/-- A fresh `FastPriorityQueue()`. -/
def FPQ.empty : FPQ := ⟨[], 0⟩

/-- Translation of `FastPriorityQueue.add_task`. -/
def FPQ.add_task (q : FPQ) (task : Coord) (priority : PVal) : FPQ :=
  { pq := heappush q.pq ⟨priority, q.counter, task⟩, counter := q.counter + 1 }

/-- Translation of `FastPriorityQueue.pop_task`: raises `KeyError` when the
queue is empty, otherwise pops the least entry and returns its task. -/
def FPQ.pop_task (q : FPQ) : Except Err (Coord × FPQ) :=
  if q.pq = [] then .error .keyError
  else
    let r := heappop q.pq
    .ok (r.1.task, { q with pq := r.2 })

/-- Translation of `FastPriorityQueue.empty`. -/
def FPQ.isEmpty (q : FPQ) : Bool := q.pq.length = 0

/-- Bridge between `heapGet` and list indexing. -/
theorem heapGet_eq_getElem {l : List Entry} {i : ℕ} (h : i < l.length) :
    heapGet l i = l[i] := by
  unfold heapGet
  rw [List.getD_eq_getElem?_getD, List.getElem?_eq_getElem h]
  rfl

/-- The root of a `heapq` heap is minimal among its members. -/
theorem heapInv_min_mem {l : List Entry} (hinv : HeapInv l) :
    ∀ e ∈ l, ¬ Entry.Lt e (heapGet l 0) := by
  intro e he
  obtain ⟨i, hi, rfl⟩ := List.mem_iff_getElem.mp he
  rw [← heapGet_eq_getElem hi]
  exact heapInv_root_min hinv i hi

/-- Well-formedness of a `FastPriorityQueue`: the list satisfies the `heapq`
invariant, every stamped count is below the counter, and counts are pairwise
distinct (each `add_task` uses a fresh `itertools.count()` value). -/
def FPQ.WF (q : FPQ) : Prop :=
  HeapInv q.pq ∧ (∀ e ∈ q.pq, e.count < q.counter) ∧ (q.pq.map Entry.count).Nodup

theorem FPQ.wf_empty : FPQ.WF FPQ.empty :=
  ⟨fun c hc _ => absurd hc (by simp [FPQ.empty]), by simp [FPQ.empty],
    by simp [FPQ.empty]⟩

theorem FPQ.wf_add_task {q : FPQ} (hwf : q.WF) (t : Coord) (p : PVal) :
    (q.add_task t p).WF := by
  obtain ⟨hinv, hcnt, hnd⟩ := hwf
  obtain ⟨inv', len', perm'⟩ := heappush_spec hinv ⟨p, q.counter, t⟩
  refine ⟨inv', ?_, ?_⟩
  · intro e he
    have hmem := perm'.mem_iff.mp he
    simp only [FPQ.add_task]
    rcases List.mem_cons.mp hmem with rfl | hmem'
    · exact Nat.lt_succ_self _
    · exact Nat.lt_trans (hcnt e hmem') (Nat.lt_succ_self _)
  · have hmap := perm'.map Entry.count
    simp only [FPQ.add_task]
    rw [hmap.nodup_iff, List.map_cons]
    refine List.nodup_cons.mpr ⟨?_, hnd⟩
    intro hmem
    obtain ⟨e, he, hec⟩ := List.mem_map.mp hmem
    exact absurd (hec ▸ hcnt e he) (lt_irrefl _)

theorem FPQ.pop_task_of_ne {q : FPQ} (hne : q.pq ≠ []) :
    q.pop_task = .ok ((heappop q.pq).1.task, ⟨(heappop q.pq).2, q.counter⟩) := by
  unfold FPQ.pop_task
  rw [if_neg hne]

/-- `pop_task` on a well-formed nonempty queue removes exactly one entry,
which is minimal: strictly least priority, or least insertion count among
the entries tied for least priority. -/
theorem FPQ.wf_pop_task {q : FPQ} (hwf : q.WF) {t : Coord} {q' : FPQ}
    (h : q.pop_task = .ok (t, q')) :
    q'.WF ∧ q'.counter = q.counter ∧ ∃ e ∈ q.pq, e.task = t ∧
      (e :: q'.pq).Perm q.pq ∧
      ∀ e' ∈ q.pq, e' ≠ e → e.priority < e'.priority ∨
        (e.priority = e'.priority ∧ e.count < e'.count) := by
  obtain ⟨hinv, hcnt, hnd⟩ := hwf
  by_cases hne : q.pq = []
  · rw [FPQ.pop_task, if_pos hne] at h
    exact absurd h (by simp)
  · rw [FPQ.pop_task_of_ne hne] at h
    obtain ⟨rfl, rfl⟩ : (heappop q.pq).1.task = t ∧
        (⟨(heappop q.pq).2, q.counter⟩ : FPQ) = q' := by
      constructor <;> cases h <;> rfl
    obtain ⟨hpop1, hinv', hperm⟩ := heappop_spec hinv hne
    have hmem0 : (heappop q.pq).1 ∈ q.pq :=
      hperm.mem_iff.mp (List.mem_cons_self _ _)
    refine ⟨⟨hinv', ?_, ?_⟩, rfl, (heappop q.pq).1, hmem0, rfl, hperm, ?_⟩
    · intro e he
      exact hcnt e (hperm.mem_iff.mp (List.mem_cons_of_mem _ he))
    · have hmap := hperm.map Entry.count
      have hv : (((heappop q.pq).1 :: (heappop q.pq).2).map Entry.count).Nodup := by
        rw [hmap.nodup_iff]
        exact hnd
      rw [List.map_cons] at hv
      exact (List.nodup_cons.mp hv).2
    · intro e' he' hne'
      have hmin : ¬ Entry.Lt e' (heapGet q.pq 0) := heapInv_min_mem hinv e' he'
      rw [← hpop1] at hmin
      rcases entryLt_not_iff.mp hmin with heq | hlt
      · exact absurd heq hne'
      · rcases hlt with hp | ⟨hp, hc | ⟨hc, -⟩⟩
        · exact Or.inl hp
        · exact Or.inr ⟨hp, hc⟩
        · exact absurd (List.inj_on_of_nodup_map hnd hmem0 he' hc)
            (Ne.symm hne')

/-- The state of a `JPSField` object: the borrowed raw grid, the cost cache
(`processed_field`), the parent map, the two priority queues, the current
best goal and its cost, the construction-time configuration, and the active
goal set of the current query.  Pluggable predicates are `none` when the
Python default is in effect (`walkable_fcn or _default_walkable_fcn`). -/
structure JPSState : Type where
  raw : Coord → PVal
  processed : Coord → PVal
  parents : Coord → Option Coord
  pq : FPQ
  resume_pq : FPQ
  goal : Option Coord
  goal_cost : PVal
  corner_cut : Bool
  diagonal_cost : ℚ
  walkable_fcn : Option (Coord → PVal → Bool)
  heuristic_fcn : Option (Coord → PVal → PVal)
  goal_set : List Coord
  resumable : Bool

/-- Pointwise update of a function-modelled 2-d array. -/
def updf {α : Type} (f : Coord → α) (p : Coord) (v : α) : Coord → α :=
  fun q => if q = p then v else f q

/-- The walkability predicate in effect: the injected one, or
`JPSField._default_walkable_fcn` (`cell == JPSField.WALKABLE`). -/
def walkableOf (s : JPSState) (p : Coord) : Bool :=
  match s.walkable_fcn with
  | some f => f p (s.raw p)
  | none => decide (s.raw p = WALKABLE)

/-- Translation of `JPSField._visit_cell`: classify a cell on first visit,
caching the result, and return the cached value. -/
def visit_cell (s : JPSState) (p : Coord) : PVal × JPSState :=
  if s.processed p = UNINITIALIZED then
    if walkableOf s p then
      (WALKABLE, { s with processed := updf s.processed p WALKABLE })
    else
      (OBSTACLE, { s with processed := updf s.processed p OBSTACLE })
  else (s.processed p, s)

/-- The classification `_visit_cell` would return at `p` (its first
component). -/
def visitVal (s : JPSState) (p : Coord) : PVal := (visit_cell s p).1

/-- Translation of `JPSField._default_heuristic_fcn`: the minimum of the
list that starts with the constant `0` and continues with the octile
distances to the members of the current goal set. -/
def default_heuristic (s : JPSState) (p : Coord) : PVal :=
  let costs : List PVal := s.goal_set.map (fun g =>
    let dx : ℚ := ((g.1 - p.1).natAbs : ℚ)
    let dy : ℚ := ((g.2 - p.2).natAbs : ℚ)
    ((min dx dy * s.diagonal_cost + max dx dy - min dx dy : ℚ) : PVal))
  costs.foldl min (((0 : ℚ) : PVal))

/-- The heuristic in effect: the injected `f(x, y, raw)` or the default. -/
def heuristicOf (s : JPSState) (p : Coord) : PVal :=
  match s.heuristic_fcn with
  | some f => f p (s.raw p)
  | none => default_heuristic s p

/-- Translation of `JPSField._enqueue_search`: push `(x, y)` with priority
`processed_field[x][y] + heuristic_fcn(x, y, raw_field[x][y])`. -/
def enqueue_search (s : JPSState) (p : Coord) : JPSState :=
  { s with pq := s.pq.add_task p (s.processed p + heuristicOf s p) }

/-- Short-circuit `visit(a) == OBSTACLE or visit(b) == OBSTACLE`: the second
cell is visited only when the first is not an obstacle. -/
def jc_pair (s : JPSState) (a b : Coord) : Bool × JPSState :=
  if (visit_cell s a).1 = OBSTACLE then (true, (visit_cell s a).2)
  else (decide ((visit_cell (visit_cell s a).2 b).1 = OBSTACLE),
        (visit_cell (visit_cell s a).2 b).2)

/-- Short-circuit `visit(a) == OBSTACLE and visit(b) == OBSTACLE`: the second
cell is visited only when the first is an obstacle. -/
def jc_both (s : JPSState) (a b : Coord) : Bool × JPSState :=
  if (visit_cell s a).1 = OBSTACLE then
    (decide ((visit_cell (visit_cell s a).2 b).1 = OBSTACLE),
     (visit_cell (visit_cell s a).2 b).2)
  else (false, (visit_cell s a).2)

/-- Translation of the jump-point test of `JPSField._explore_cardinal`
(the `if not self.corner_cut ... else ...` block), with Python's
short-circuit evaluation order of the `_visit_cell` calls preserved. -/
def cardinal_jump_check (s : JPSState) (cur d : Coord) : Bool × JPSState :=
  if s.corner_cut = false then
    -- dir_x == 0 and (visit(x+1, y-dy) == OBSTACLE or visit(x-1, y-dy) == OBSTACLE)
    let first :=
      if d.1 = 0 then jc_pair s (cur.1 + 1, cur.2 - d.2) (cur.1 - 1, cur.2 - d.2)
      else (false, s)
    if first.1 then first
    else
      -- dir_y == 0 and (visit(x-dx, y+1) == OBSTACLE or visit(x-dx, y-1) == OBSTACLE)
      if d.2 = 0 then jc_pair first.2 (cur.1 - d.1, cur.2 + 1) (cur.1 - d.1, cur.2 - 1)
      else (false, first.2)
  else
    -- corner-cut variant: the perpendicular neighbours without the offset
    let first :=
      if d.1 = 0 then jc_pair s (cur.1 + 1, cur.2) (cur.1 - 1, cur.2)
      else (false, s)
    if first.1 then first
    else
      if d.2 = 0 then jc_pair first.2 (cur.1, cur.2 + 1) (cur.1, cur.2 - 1)
      else (false, first.2)

/-- One iteration of the `while True` loop of `JPSField._explore_cardinal`:
returns the updated state, and `some (cur, cost)` when the loop continues
(`none` when the Python loop returns). -/
def cardinal_iter (s : JPSState) (start d cur : Coord) (cost : PVal) :
    JPSState × Option (Coord × PVal) :=
  let cur : Coord := (cur.1 + d.1, cur.2 + d.2)
  let cost := cost + ((1 : ℚ) : PVal)
  if s.goal_cost < cost ∧ s.resumable = false then (s, none)
  else
    let r := visit_cell s cur
    if r.1 = OBSTACLE then (r.2, none)
    else if r.2.processed cur ≤ cost then (r.2, none)
    else
      let s1 := { r.2 with processed := updf r.2.processed cur cost,
                           parents := updf r.2.parents cur (some start) }
      let jc := cardinal_jump_check s1 cur d
      let s2 := if jc.1 then enqueue_search jc.2 cur else jc.2
      if cur ∈ s2.goal_set then
        let s3 :=
          if cost < s2.goal_cost then
            { s2 with goal := some cur, goal_cost := cost }
          else s2
        if s3.resumable = false then (s3, none) else (s3, some (cur, cost))
      else (s2, some (cur, cost))

/-- Loop of `JPSField._explore_cardinal`, fuel-indexed; `start` is the ray
origin, `cur`/`cost` are the loop-carried position and accumulated cost.
`none` means the fuel ran out (the Python loop would have kept running). -/
def explore_cardinal (fuel : ℕ) (s : JPSState) (start d cur : Coord)
    (cost : PVal) : Option JPSState :=
  match fuel with
  | 0 => none
  | fuel + 1 =>
    match cardinal_iter s start d cur cost with
    | (s', none) => some s'
    | (s', some (cur', cost')) => explore_cardinal fuel s' start d cur' cost'

/-- `JPSField._explore_cardinal(start_x, start_y, dir_x, dir_y)`:
initializes the loop-carried variables from the ray origin. -/
def explore_cardinal_from (fuel : ℕ) (s : JPSState) (start d : Coord) :
    Option JPSState :=
  explore_cardinal fuel s start d start (s.processed start)

/-- The two corner checks guarding a diagonal move into `cur` (lines
`if (not self.corner_cut and (...))` and the fully-blocked-corner check of
`_explore_diagonal`): returns whether the move is blocked, with the
classification visits applied in Python order. -/
def diag_blocked (sv : JPSState) (d cur : Coord) : Bool × JPSState :=
  let k1 :=
    if sv.corner_cut = false then
      jc_pair sv (cur.1 - d.1, cur.2) (cur.1, cur.2 - d.2)
    else (false, sv)
  if k1.1 then (true, k1.2)
  else
    let k2 := jc_both k1.2 (cur.1 - d.1, cur.2) (cur.1, cur.2 - d.2)
    (k2.1, k2.2)

/-- Tail of a continuing diagonal iteration: the corner-cut jump-point test
with its conditional enqueue, then the two perpendicular cardinal rays. -/
def diag_tail (cf : ℕ) (s2 : JPSState) (d cur : Coord) (cost : PVal) :
    Option (JPSState × Option (Coord × PVal)) :=
  let jc :=
    if s2.corner_cut = true then
      jc_pair s2 (cur.1 - d.1, cur.2) (cur.1, cur.2 - d.2)
    else (false, s2)
  let s3 := if jc.1 then enqueue_search jc.2 cur else jc.2
  match explore_cardinal cf s3 cur (d.1, 0) cur (s3.processed cur) with
  | none => none
  | some s4 =>
    match explore_cardinal cf s4 cur (0, d.2) cur (s4.processed cur) with
    | none => none
    | some s5 => some (s5, some (cur, cost))

/-- Body of one `_explore_diagonal` iteration, after the loop head has
already advanced `cur` by `d` and added the diagonal cost; `cf` is the fuel
handed to the nested `_explore_cardinal` calls, and the outer `none` marks
fuel exhaustion inside those nested calls. -/
def diagonal_iter_at (cf : ℕ) (s : JPSState) (start d cur : Coord)
    (cost : PVal) : Option (JPSState × Option (Coord × PVal)) :=
  if s.goal_cost < cost ∧ s.resumable = false then some (s, none)
  else
    let r := visit_cell s cur
    if r.1 = OBSTACLE then some (r.2, none)
    else
      let b := diag_blocked r.2 d cur
      if b.1 then some (b.2, none)
      else
        if b.2.processed cur ≤ cost then some (b.2, none)
        else
          let s1 : JPSState :=
            { b.2 with processed := updf b.2.processed cur cost,
                       parents := updf b.2.parents cur (some start) }
          let s2 : JPSState :=
            if cur ∈ s1.goal_set ∧ cost < s1.goal_cost then
              { s1 with goal := some cur, goal_cost := cost }
            else s1
          if cur ∈ s1.goal_set ∧ s2.resumable = false then some (s2, none)
          else diag_tail cf s2 d cur cost

/-- One iteration of the `while True` loop of `JPSField._explore_diagonal`:
advance `cur` diagonally, add the diagonal cost, then run the body. -/
def diagonal_iter (cf : ℕ) (s : JPSState) (start d cur : Coord)
    (cost : PVal) : Option (JPSState × Option (Coord × PVal)) :=
  diagonal_iter_at cf s start d (cur.1 + d.1, cur.2 + d.2)
    (cost + ((s.diagonal_cost : ℚ) : PVal))

/-- Loop of `JPSField._explore_diagonal`, fuel-indexed. -/
def explore_diagonal (cf : ℕ) (fuel : ℕ) (s : JPSState) (start d cur : Coord)
    (cost : PVal) : Option JPSState :=
  match fuel with
  | 0 => none
  | fuel + 1 =>
    match diagonal_iter cf s start d cur cost with
    | none => none
    | some (s', none) => some s'
    | some (s', some (cur', cost')) =>
      explore_diagonal cf fuel s' start d cur' cost'

/-- `JPSField._explore_diagonal(start_x, start_y, dir_x, dir_y)`. -/
def explore_diagonal_from (cf : ℕ) (fuel : ℕ) (s : JPSState) (start d : Coord) :
    Option JPSState :=
  explore_diagonal cf fuel s start d start (s.processed start)

/-- One expansion of the main loop of `JPSField._jps`: the four cardinal and
four diagonal explorations fired from the popped cell, in source order. -/
def explore8 (cf : ℕ) (s : JPSState) (p : Coord) : Option JPSState :=
  (explore_cardinal_from cf s p (1, 0)).bind fun s =>
  (explore_cardinal_from cf s p (-1, 0)).bind fun s =>
  (explore_cardinal_from cf s p (0, 1)).bind fun s =>
  (explore_cardinal_from cf s p (0, -1)).bind fun s =>
  (explore_diagonal_from cf cf s p (1, 1)).bind fun s =>
  (explore_diagonal_from cf cf s p (1, -1)).bind fun s =>
  (explore_diagonal_from cf cf s p (-1, 1)).bind fun s =>
  explore_diagonal_from cf cf s p (-1, -1)

/-- Translation of `JPSField._jps`: pop until the queue empties or the popped
cell's cached cost reaches the best goal cost; raise `No path is found` when
the queue empties with `goal_cost` still infinite.  The second component is
the raised error, if any; the state is returned alongside because a Python
raise leaves the object intact. -/
def jps (cf : ℕ) (fuel : ℕ) (s : JPSState) : Option (JPSState × Option Err) :=
  match fuel with
  | 0 => none
  | fuel + 1 =>
    if s.pq.isEmpty = false then
      match s.pq.pop_task with
      | .error e => some (s, some e)
      | .ok (p, pq') =>
        match explore8 cf { s with pq := pq' } p with
        | none => none
        | some s' =>
          if s'.goal_cost ≤ s'.processed p then some (s', none)
          else jps cf fuel s'
    else
      if s.goal_cost = WALKABLE then some (s, some .noPath)
      else some (s, none)

/-- The goal-set filter of `get_jump_point_path`
(`{g for g in goal_set if self._visit_cell(*g) != JPSField.OBSTACLE}`),
visiting each candidate left to right. -/
def filter_goals (s : JPSState) : List Coord → List Coord × JPSState
  | [] => ([], s)
  | g :: rest =>
    let r := visit_cell s g
    let rec' := filter_goals r.2 rest
    if r.1 ≠ OBSTACLE then (g :: rec'.1, rec'.2) else rec'

/-- Tail of Python's `min(goal_set, key=lambda g: self._visit_cell(*g))`:
keep the first element whose key is strictly least. -/
def min_goal_go (s : JPSState) (best : Coord) (bestKey : PVal) :
    List Coord → Coord × JPSState
  | [] => (best, s)
  | g :: rest =>
    let r := visit_cell s g
    if r.1 < bestKey then min_goal_go r.2 g r.1 rest
    else min_goal_go r.2 best bestKey rest

/-- Python's `min(goal_set, key=lambda g: self._visit_cell(*g))` over the
(nonempty in every reachable call) unfiltered goal list. -/
def min_goal (s : JPSState) : List Coord → Option Coord × JPSState
  | [] => (none, s)
  | g :: rest =>
    let r := visit_cell s g
    let m := min_goal_go r.2 g r.1 rest
    (some m.1, m.2)

/-- The parent-chain walk of `get_jump_point_path`
(`while cur_x != None: path.append(...); cur = parents[cur]`), accumulating
the reversed list directly; fuel guards against (unreachable) parent cycles. -/
def recon_go (fuel : ℕ) (par : Coord → Option Coord) :
    Option Coord → List Coord → Option (List Coord)
  | none, acc => some acc
  | some c, acc =>
    match fuel with
    | 0 => none
    | fuel + 1 => recon_go fuel par (par c) (c :: acc)

/-- Path reconstruction from the recorded best goal. -/
def reconstruct (fuel : ℕ) (s : JPSState) : Option (List Coord) :=
  recon_go fuel s.parents s.goal []

/-- Translation of `JPSField.get_jump_point_path`. -/
def get_jump_point_path (cf : ℕ) (fuel : ℕ) (s : JPSState)
    (goals : List Coord) : Option (JPSState × Except Err (List Coord)) :=
  let f := filter_goals s goals
  let s := { f.2 with goal_set := f.1 }
  if f.1 = [] then some (s, .error .noGoal)
  else
    match min_goal s goals with
    | (none, s) => some (s, .error .noGoal)  -- unreachable: goals is nonempty
    | (some m, s) =>
      if s.processed m ≠ WALKABLE then
        let s := { s with goal := some m, goal_cost := s.processed m }
        match reconstruct fuel s with
        | none => none
        | some path => some (s, .ok path)
      else
        match jps cf fuel s with
        | none => none
        | some (s, some e) => some (s, .error e)
        | some (s, none) =>
          match reconstruct fuel s with
          | none => none
          | some path => some (s, .ok path)

/-- The straight-segment interpolation loop of `get_full_path`: for each
consecutive pair, the points of `zip(xs, ys)` where an exhausted axis is
`repeat`ed.  Both directions zero would make Python's `zip` of two infinite
`repeat`s diverge; that (unreachable) case is modelled by `none`. -/
def full_segments : Coord → List Coord → Option (List Coord)
  | _, [] => some []
  | cur, nxt :: rest =>
    let dx := signum (nxt.1 - cur.1)
    let dy := signum (nxt.2 - cur.2)
    if dx = 0 ∧ dy = 0 then none
    else
      let n : ℕ :=
        if dx = 0 then (nxt.2 - cur.2).natAbs
        else if dy = 0 then (nxt.1 - cur.1).natAbs
        else min (nxt.1 - cur.1).natAbs (nxt.2 - cur.2).natAbs
      (full_segments nxt rest).map (fun tail =>
        ((List.range n).map fun i =>
          ((cur.1 + (i : Int) * dx, cur.2 + (i : Int) * dy) : Coord)) ++ tail)

/-- Translation of `JPSField.get_full_path`. -/
def get_full_path (cf : ℕ) (fuel : ℕ) (s : JPSState) (goals : List Coord) :
    Option (JPSState × Except Err (List Coord)) :=
  match get_jump_point_path cf fuel s goals with
  | none => none
  | some (s, .error e) => some (s, .error e)
  | some (s, .ok path) =>
    match path with
    | [] => some (s, .error .indexError)  -- Python would crash on path[-1]
    | p0 :: rest =>
      match full_segments p0 rest with
      | none => none
      | some pts => some (s, .ok (pts ++ [path.getLastD (0, 0)]))

/-- Translation of `JPSField.get_path_length`: run the query, then report
`self.goal_cost`. -/
def get_path_length (cf : ℕ) (fuel : ℕ) (s : JPSState) (goals : List Coord) :
    Option (JPSState × Except Err PVal) :=
  match get_jump_point_path cf fuel s goals with
  | none => none
  | some (s, .error e) => some (s, .error e)
  | some (s, .ok _) => some (s, .ok s.goal_cost)

/-- Translation of `JPSField.__init__`: classify the start (raising
`Starting cell is not walkable` when it is an obstacle), enqueue it — note,
before its cost is set, so with priority `inf + heuristic` — then set its
cached cost to `0`. -/
def init (raw : Coord → PVal) (sx sy : Int) (corner_cut : Bool)
    (diagonal_cost : ℚ) (walkable_fcn : Option (Coord → PVal → Bool))
    (heuristic_fcn : Option (Coord → PVal → PVal)) (resumable : Bool) :
    Except Err JPSState :=
  let s0 : JPSState :=
    { raw := raw
      processed := fun _ => UNINITIALIZED
      parents := fun _ => none
      pq := FPQ.empty
      resume_pq := FPQ.empty
      goal := none
      goal_cost := WALKABLE
      corner_cut := corner_cut
      diagonal_cost := diagonal_cost
      walkable_fcn := walkable_fcn
      heuristic_fcn := heuristic_fcn
      goal_set := []
      resumable := resumable }
  let r := visit_cell s0 (sx, sy)
  if r.1 = OBSTACLE then .error .invalidStart
  else
    let s1 := enqueue_search r.2 (sx, sy)
    .ok { s1 with processed := updf s1.processed (sx, sy) (((0 : ℚ) : PVal)) }

/-- Embed a finite grid of raw values into the infinite plane, padding with
`OBSTACLE` outside; per the spec the caller must border the grid with
non-walkable cells, so the algorithm never consults the padding. -/
def rawOfGrid (g : List (List PVal)) : Coord → PVal :=
  fun p =>
    if 0 ≤ p.1 ∧ 0 ≤ p.2 then (g.getD p.1.toNat []).getD p.2.toNat OBSTACLE
    else OBSTACLE

/-- A value that is a nonnegative finite float (every cost the search ever
stores or enqueues). -/
def NonNegFin (v : PVal) : Prop := ∃ c : ℚ, 0 ≤ c ∧ v = ((c : ℚ) : PVal)

/-- How one program step may change the cost cache: leave a cell alone,
classify an untouched cell, or overwrite a classified cell with a strictly
smaller nonnegative finite cost. -/
def StepWrites (s s' : JPSState) : Prop :=
  ∀ p, s'.processed p = s.processed p ∨
    (s.processed p = UNINITIALIZED ∧
      (s'.processed p = WALKABLE ∨ s'.processed p = OBSTACLE ∨
        NonNegFin (s'.processed p))) ∨
    (s.processed p ≠ UNINITIALIZED ∧ s'.processed p < s.processed p ∧
      NonNegFin (s'.processed p))

/-- The construction-time configuration and the active goal set, which no
explorer ever modifies. -/
def ConfigEq (s s' : JPSState) : Prop :=
  s'.raw = s.raw ∧ s'.corner_cut = s.corner_cut ∧
  s'.diagonal_cost = s.diagonal_cost ∧ s'.walkable_fcn = s.walkable_fcn ∧
  s'.heuristic_fcn = s.heuristic_fcn ∧ s'.goal_set = s.goal_set ∧
  s'.resumable = s.resumable

/-- The queue invariant carried through the search: a well-formed heap whose
tasks all have nonnegative finite cached costs. -/
def PQOk (s : JPSState) : Prop :=
  FPQ.WF s.pq ∧ ∀ e ∈ s.pq.pq, NonNegFin (s.processed e.task)

/-- The bundled effect of any explorer step. -/
def Step (s s' : JPSState) : Prop :=
  StepWrites s s' ∧ ConfigEq s s' ∧ (PQOk s → PQOk s')

theorem nonNegFin_ne_uninit {v : PVal} (h : NonNegFin v) : v ≠ UNINITIALIZED := by
  obtain ⟨c, hc, rfl⟩ := h
  unfold UNINITIALIZED
  rw [ne_eq, WithTop.coe_eq_coe]
  intro hceq
  rw [hceq] at hc
  norm_num at hc

theorem walkable_ne_uninit : WALKABLE ≠ UNINITIALIZED := by
  unfold WALKABLE UNINITIALIZED
  exact (WithTop.coe_ne_top).symm

theorem obstacle_ne_uninit : OBSTACLE ≠ UNINITIALIZED := by
  unfold OBSTACLE UNINITIALIZED
  rw [ne_eq, WithTop.coe_eq_coe]
  norm_num

theorem stepWrites_refl (s : JPSState) : StepWrites s s := fun _ => Or.inl rfl

theorem stepWrites_ne_uninit {s s' : JPSState} (h : StepWrites s s') (p : Coord)
    (hp : s.processed p ≠ UNINITIALIZED) : s'.processed p ≠ UNINITIALIZED := by
  rcases h p with heq | ⟨hu, _⟩ | ⟨_, _, hf⟩
  · rwa [heq]
  · exact absurd hu hp
  · exact nonNegFin_ne_uninit hf

theorem stepWrites_trans {s₁ s₂ s₃ : JPSState} (h1 : StepWrites s₁ s₂)
    (h2 : StepWrites s₂ s₃) : StepWrites s₁ s₃ := by
  intro p
  rcases h2 p with heq2 | ⟨hu2, hv2⟩ | ⟨hn2, hlt2, hf2⟩
  · rw [heq2]
    exact h1 p
  · rcases h1 p with heq1 | ⟨hu1, hv1⟩ | ⟨hn1, hlt1, hf1⟩
    · rw [heq1] at hu2
      exact Or.inr (Or.inl ⟨hu2, hv2⟩)
    · rcases hv1 with h | h | h
      · exact absurd (h ▸ hu2) walkable_ne_uninit
      · exact absurd (h ▸ hu2) obstacle_ne_uninit
      · exact absurd hu2 (nonNegFin_ne_uninit h)
    · exact absurd hu2 (nonNegFin_ne_uninit hf1)
  · rcases h1 p with heq1 | ⟨hu1, hv1⟩ | ⟨hn1, hlt1, hf1⟩
    · rw [heq1] at hlt2
      exact Or.inr (Or.inr ⟨heq1 ▸ hn2, hlt2, hf2⟩)
    · exact Or.inr (Or.inl ⟨hu1, Or.inr (Or.inr hf2)⟩)
    · exact Or.inr (Or.inr ⟨hn1, lt_trans hlt2 hlt1, hf2⟩)

theorem stepWrites_obstacle {s s' : JPSState} (h : StepWrites s s') (p : Coord)
    (hp : s.processed p = OBSTACLE) : s'.processed p = OBSTACLE := by
  rcases h p with heq | ⟨hu, _⟩ | ⟨_, hlt, hf⟩
  · rw [heq, hp]
  · exact absurd (hp ▸ hu) obstacle_ne_uninit
  · exfalso
    obtain ⟨c, hc, hcv⟩ := hf
    rw [hp, hcv] at hlt
    unfold OBSTACLE at hlt
    rw [WithTop.coe_lt_coe] at hlt
    linarith

theorem stepWrites_mono {s s' : JPSState} (h : StepWrites s s') (p : Coord)
    (hp : s.processed p ≠ UNINITIALIZED) : s'.processed p ≤ s.processed p := by
  rcases h p with heq | ⟨hu, _⟩ | ⟨_, hlt, _⟩
  · exact le_of_eq heq
  · exact absurd hu hp
  · exact le_of_lt hlt

theorem stepWrites_nonNegFin {s s' : JPSState} (h : StepWrites s s') (p : Coord)
    (hp : NonNegFin (s.processed p)) : NonNegFin (s'.processed p) := by
  rcases h p with heq | ⟨hu, _⟩ | ⟨_, _, hf⟩
  · rwa [heq]
  · exact absurd hu (nonNegFin_ne_uninit hp)
  · exact hf

theorem configEq_refl (s : JPSState) : ConfigEq s s :=
  ⟨rfl, rfl, rfl, rfl, rfl, rfl, rfl⟩

theorem configEq_trans {s₁ s₂ s₃ : JPSState} (h1 : ConfigEq s₁ s₂)
    (h2 : ConfigEq s₂ s₃) : ConfigEq s₁ s₃ := by
  obtain ⟨a1, b1, c1, d1, e1, f1, g1⟩ := h1
  obtain ⟨a2, b2, c2, d2, e2, f2, g2⟩ := h2
  exact ⟨a2.trans a1, b2.trans b1, c2.trans c1, d2.trans d1, e2.trans e1,
    f2.trans f1, g2.trans g1⟩

theorem step_refl (s : JPSState) : Step s s :=
  ⟨stepWrites_refl s, configEq_refl s, id⟩

theorem step_trans {s₁ s₂ s₃ : JPSState} (h1 : Step s₁ s₂) (h2 : Step s₂ s₃) :
    Step s₁ s₃ :=
  ⟨stepWrites_trans h1.1 h2.1, configEq_trans h1.2.1 h2.2.1,
    fun hq => h2.2.2 (h1.2.2 hq)⟩

theorem updf_self {α : Type} (f : Coord → α) (p : Coord) (v : α) :
    updf f p v p = v := by
  simp [updf]

theorem updf_ne {α : Type} (f : Coord → α) {p q : Coord} (v : α) (h : q ≠ p) :
    updf f p v q = f q := by
  simp [updf, h]

theorem visit_cell_other (s : JPSState) (p : Coord) :
    (visit_cell s p).2.pq = s.pq ∧ (visit_cell s p).2.parents = s.parents ∧
    (visit_cell s p).2.goal = s.goal ∧
    (visit_cell s p).2.goal_cost = s.goal_cost ∧
    ConfigEq s (visit_cell s p).2 := by
  unfold visit_cell
  split
  · split <;>
      exact ⟨rfl, rfl, rfl, rfl, rfl, rfl, rfl, rfl, rfl, rfl, rfl⟩
  · exact ⟨rfl, rfl, rfl, rfl, rfl, rfl, rfl, rfl, rfl, rfl, rfl⟩

theorem visit_cell_sw (s : JPSState) (p : Coord) :
    StepWrites s (visit_cell s p).2 := by
  intro q
  unfold visit_cell
  split
  · split
    · by_cases hq : q = p
      · subst hq
        refine Or.inr (Or.inl ⟨by assumption, Or.inl ?_⟩)
        simp [updf_self]
      · exact Or.inl (by simp [updf_ne _ _ hq])
    · by_cases hq : q = p
      · subst hq
        refine Or.inr (Or.inl ⟨by assumption, Or.inr (Or.inl ?_)⟩)
        simp [updf_self]
      · exact Or.inl (by simp [updf_ne _ _ hq])
  · exact Or.inl rfl

theorem visit_cell_processed_self (s : JPSState) (p : Coord) :
    (visit_cell s p).2.processed p = (visit_cell s p).1 := by
  unfold visit_cell
  split
  · split <;> simp [updf_self]
  · rfl

theorem visit_cell_processed_ne (s : JPSState) {p q : Coord} (h : q ≠ p) :
    (visit_cell s p).2.processed q = s.processed q := by
  unfold visit_cell
  split
  · split <;> simp [updf_ne _ _ h]
  · rfl

theorem visit_cell_fst_ne_uninit (s : JPSState) (p : Coord) :
    (visit_cell s p).1 ≠ UNINITIALIZED := by
  unfold visit_cell
  split
  · split
    · exact walkable_ne_uninit
    · exact obstacle_ne_uninit
  · assumption

theorem step_visit (s : JPSState) (p : Coord) : Step s (visit_cell s p).2 := by
  obtain ⟨hpq, hpar, hg, hgc, hcfg⟩ := visit_cell_other s p
  refine ⟨visit_cell_sw s p, hcfg, ?_⟩
  rintro ⟨hwf, hent⟩
  rw [PQOk, hpq]
  exact ⟨hwf, fun e he =>
    stepWrites_nonNegFin (visit_cell_sw s p) e.task (hent e he)⟩

theorem walkableOf_congr {s s' : JPSState} (p : Coord) (hr : s'.raw = s.raw)
    (hw : s'.walkable_fcn = s.walkable_fcn) : walkableOf s' p = walkableOf s p := by
  unfold walkableOf
  rw [hr, hw]

theorem visitVal_congr {s s' : JPSState} (p : Coord)
    (hp : s'.processed p = s.processed p) (hr : s'.raw = s.raw)
    (hw : s'.walkable_fcn = s.walkable_fcn) : visitVal s' p = visitVal s p := by
  unfold visitVal visit_cell
  rw [hp, walkableOf_congr p hr hw]
  split
  · split <;> rfl
  · rfl

/-- Visiting one cell never changes what any visit would classify. -/
theorem visitVal_stable (s : JPSState) (q p : Coord) :
    visitVal (visit_cell s q).2 p = visitVal s p := by
  by_cases hpq : p = q
  · subst hpq
    unfold visitVal
    conv_lhs => rw [visit_cell]
    rw [if_neg]
    · exact visit_cell_processed_self s p
    · rw [visit_cell_processed_self s p]
      exact visit_cell_fst_ne_uninit s p
  · obtain ⟨-, -, -, -, hraw, -, -, hwf, -, -, -⟩ := visit_cell_other s q
    exact visitVal_congr p (visit_cell_processed_ne s hpq) hraw hwf

theorem jc_pair_step (s : JPSState) (a b : Coord) : Step s (jc_pair s a b).2 := by
  unfold jc_pair
  by_cases h : (visit_cell s a).1 = OBSTACLE
  · rw [if_pos h]
    exact step_visit s a
  · rw [if_neg h]
    exact step_trans (step_visit s a) (step_visit (visit_cell s a).2 b)

theorem jc_both_step (s : JPSState) (a b : Coord) : Step s (jc_both s a b).2 := by
  unfold jc_both
  by_cases h : (visit_cell s a).1 = OBSTACLE
  · rw [if_pos h]
    exact step_trans (step_visit s a) (step_visit (visit_cell s a).2 b)
  · rw [if_neg h]
    exact step_visit s a

theorem jc_pair_fst (s : JPSState) (a b : Coord) :
    (jc_pair s a b).1 = true ↔
      (visitVal s a = OBSTACLE ∨ visitVal s b = OBSTACLE) := by
  unfold jc_pair
  by_cases h : (visit_cell s a).1 = OBSTACLE
  · rw [if_pos h]
    simp only [true_iff]
    exact Or.inl h
  · rw [if_neg h]
    rw [show (visit_cell (visit_cell s a).2 b).1 = visitVal s b from
      visitVal_stable s a b]
    simp only [decide_eq_true_eq]
    constructor
    · exact Or.inr
    · rintro (hh | hh)
      · exact absurd hh h
      · exact hh

theorem jc_both_fst (s : JPSState) (a b : Coord) :
    (jc_both s a b).1 = true ↔
      (visitVal s a = OBSTACLE ∧ visitVal s b = OBSTACLE) := by
  unfold jc_both
  by_cases h : (visit_cell s a).1 = OBSTACLE
  · rw [if_pos h]
    rw [show (visit_cell (visit_cell s a).2 b).1 = visitVal s b from
      visitVal_stable s a b]
    simp only [decide_eq_true_eq]
    constructor
    · exact fun hh => ⟨h, hh⟩
    · exact fun hh => hh.2
  · rw [if_neg h]
    simp only [Bool.false_eq_true, false_iff]
    exact fun hh => h hh.1

theorem cardinal_jump_check_step (s : JPSState) (cur d : Coord) :
    Step s (cardinal_jump_check s cur d).2 := by
  simp only [cardinal_jump_check]
  split
  · split
    · split
      · exact jc_pair_step ..
      · split
        · exact step_trans (jc_pair_step ..) (jc_pair_step ..)
        · exact jc_pair_step ..
    · split
      · exact step_refl s
      · split
        · exact jc_pair_step ..
        · exact step_refl s
  · split
    · split
      · exact jc_pair_step ..
      · split
        · exact step_trans (jc_pair_step ..) (jc_pair_step ..)
        · exact jc_pair_step ..
    · split
      · exact step_refl s
      · split
        · exact jc_pair_step ..
        · exact step_refl s

theorem step_write {s : JPSState} {cur start : Coord} {cost : PVal}
    (hlt : cost < s.processed cur) (hnu : s.processed cur ≠ UNINITIALIZED)
    (hc : (0 : PVal) ≤ cost) :
    Step s { s with processed := updf s.processed cur cost,
                    parents := updf s.parents cur (some start) } := by
  have hfin : NonNegFin cost := by
    have htop : cost ≠ ⊤ := ne_top_of_lt (lt_of_lt_of_le hlt le_top)
    obtain ⟨c, rfl⟩ := WithTop.ne_top_iff_exists.mp htop
    exact ⟨c, by exact_mod_cast hc, rfl⟩
  have hsw : ∀ s' : JPSState, s'.processed = updf s.processed cur cost →
      StepWrites s s' := by
    intro s' hs' p
    rw [hs']
    by_cases hp : p = cur
    · subst hp
      rw [updf_self]
      exact Or.inr (Or.inr ⟨hnu, hlt, hfin⟩)
    · rw [updf_ne _ _ hp]
      exact Or.inl rfl
  refine ⟨hsw _ rfl, ⟨rfl, rfl, rfl, rfl, rfl, rfl, rfl⟩, ?_⟩
  rintro ⟨hwf, hent⟩
  exact ⟨hwf, fun e he => stepWrites_nonNegFin (hsw _ rfl) e.task (hent e he)⟩

theorem step_set_goal (s : JPSState) (cur : Coord) (cost : PVal) :
    Step s { s with goal := some cur, goal_cost := cost } :=
  ⟨fun _ => Or.inl rfl, ⟨rfl, rfl, rfl, rfl, rfl, rfl, rfl⟩, fun h => h⟩

theorem step_enqueue {s : JPSState} (p : Coord)
    (hp : NonNegFin (s.processed p)) : Step s (enqueue_search s p) := by
  refine ⟨fun _ => Or.inl rfl, ⟨rfl, rfl, rfl, rfl, rfl, rfl, rfl⟩, ?_⟩
  rintro ⟨hwf, hent⟩
  refine ⟨FPQ.wf_add_task hwf _ _, ?_⟩
  intro e he
  have hperm := (heappush_spec hwf.1
    ⟨s.processed p + heuristicOf s p, s.pq.counter, p⟩).2.2
  rcases List.mem_cons.mp (hperm.mem_iff.mp he) with rfl | hmem
  · exact hp
  · exact hent e hmem

theorem nonNegFin_nonneg {v : PVal} (h : NonNegFin v) : (0 : PVal) ≤ v := by
  obtain ⟨c, hc, rfl⟩ := h
  exact_mod_cast hc

theorem nonNegFin_of_lt_nonneg {cost v : PVal} (hlt : cost < v)
    (hc : (0 : PVal) ≤ cost) : NonNegFin cost := by
  have htop : cost ≠ ⊤ := ne_top_of_lt (lt_of_lt_of_le hlt le_top)
  obtain ⟨c, rfl⟩ := WithTop.ne_top_iff_exists.mp htop
  exact ⟨c, by exact_mod_cast hc, rfl⟩

theorem pval_one_nonneg : (0 : PVal) ≤ ((1 : ℚ) : PVal) := by
  exact_mod_cast (zero_le_one : (0 : ℚ) ≤ 1)

/-- Step through the cost/parent write, the jump-point check, and the
conditional enqueue of one cardinal iteration. -/
theorem step_through_s2 {sv : JPSState} (c start d : Coord) {cost : PVal}
    (hlt : cost < sv.processed c) (hnu : sv.processed c ≠ UNINITIALIZED)
    (hc : (0 : PVal) ≤ cost) :
    Step sv (if (cardinal_jump_check { sv with
        processed := updf sv.processed c cost,
        parents := updf sv.parents c (some start) } c d).1 then
      enqueue_search (cardinal_jump_check { sv with
        processed := updf sv.processed c cost,
        parents := updf sv.parents c (some start) } c d).2 c
      else (cardinal_jump_check { sv with
        processed := updf sv.processed c cost,
        parents := updf sv.parents c (some start) } c d).2) := by
  have hw := @step_write sv c start cost hlt hnu hc
  have hfin : NonNegFin cost := nonNegFin_of_lt_nonneg hlt hc
  have hjcstep := cardinal_jump_check_step { sv with
      processed := updf sv.processed c cost,
      parents := updf sv.parents c (some start) } c d
  have hbase := step_trans hw hjcstep
  split
  · refine step_trans hbase (step_enqueue c ?_)
    refine stepWrites_nonNegFin hjcstep.1 c ?_
    show NonNegFin (updf sv.processed c cost c)
    rw [updf_self]
    exact hfin
  · exact hbase

/-- One cardinal iteration is a legitimate step and keeps the running cost
nonnegative. -/
theorem cardinal_iter_ok (s : JPSState) (start d cur : Coord) (cost : PVal)
    (out : JPSState × Option (Coord × PVal)) (hcost : (0 : PVal) ≤ cost)
    (h : cardinal_iter s start d cur cost = out) :
    Step s out.1 ∧
      ∀ cur' cost', out.2 = some (cur', cost') → (0 : PVal) ≤ cost' := by
  have hcost' : (0 : PVal) ≤ cost + ((1 : ℚ) : PVal) :=
    add_nonneg hcost pval_one_nonneg
  simp only [cardinal_iter] at h
  split at h
  · subst h
    exact ⟨step_refl s, by simp⟩
  · split at h
    · subst h
      exact ⟨step_visit .., by simp⟩
    · split at h
      · subst h
        exact ⟨step_visit .., by simp⟩
      · next hobs hdom =>
        set c' : Coord := (cur.1 + d.1, cur.2 + d.2) with hcdef
        have hlt := not_le.mp hdom
        have hnu : (visit_cell s c').2.processed c' ≠ UNINITIALIZED := by
          rw [visit_cell_processed_self]
          exact visit_cell_fst_ne_uninit s c'
        set sv : JPSState := (visit_cell s c').2 with hsv
        set s1 : JPSState := { sv with
          processed := updf sv.processed c' (cost + ((1 : ℚ) : PVal)),
          parents := updf sv.parents c' (some start) } with hs1
        set jc : Bool × JPSState := cardinal_jump_check s1 c' d with hjc
        set s2 : JPSState := if jc.1 then enqueue_search jc.2 c' else jc.2
          with hs2
        set s3 : JPSState := if cost + ((1 : ℚ) : PVal) < s2.goal_cost then
          { s2 with goal := some c', goal_cost := cost + ((1 : ℚ) : PVal) }
          else s2 with hs3
        have h01 : Step s sv := by
          rw [hsv]
          exact step_visit s c'
        have h12 : Step sv s2 := by
          rw [hs2, hjc, hs1]
          exact step_through_s2 c' start d hlt hnu hcost'
        have h23 : Step s2 s3 := by
          rw [hs3]
          split
          · exact step_set_goal ..
          · exact step_refl _
        have h02 : Step s s2 := step_trans h01 h12
        have h03 : Step s s3 := step_trans h02 h23
        split at h
        · split at h
          · subst h
            exact ⟨h03, by simp⟩
          · subst h
            refine ⟨h03, ?_⟩
            intro c'' co'' hh
            simp only [Option.some.injEq, Prod.mk.injEq] at hh
            rw [← hh.2]
            exact hcost'
        · subst h
          refine ⟨h02, ?_⟩
          intro c'' co'' hh
          simp only [Option.some.injEq, Prod.mk.injEq] at hh
          rw [← hh.2]
          exact hcost'

/-- The cardinal explorer only performs legitimate steps. -/
theorem explore_cardinal_ok :
    ∀ (fuel : ℕ) (s : JPSState) (start d cur : Coord) (cost : PVal)
      (s' : JPSState), (0 : PVal) ≤ cost →
    explore_cardinal fuel s start d cur cost = some s' → Step s s' := by
  intro fuel
  induction fuel with
  | zero =>
    intro s start d cur cost s' hc h
    exact absurd h (by simp [explore_cardinal])
  | succ fuel ih =>
    intro s start d cur cost s' hc h
    rw [explore_cardinal] at h
    rcases hiter : cardinal_iter s start d cur cost with ⟨sI, co⟩
    rw [hiter] at h
    obtain ⟨hstep, hcont⟩ := cardinal_iter_ok s start d cur cost _ hc hiter
    cases co with
    | none =>
      obtain rfl := Option.some.inj h
      exact hstep
    | some pair =>
      rcases pair with ⟨cur', cost'⟩
      exact step_trans hstep (ih sI start d cur' cost' s' (hcont cur' cost' rfl) h)

/-- The corner checks of a diagonal step only perform classification
visits. -/
theorem diag_blocked_step (sv : JPSState) (d cur : Coord) :
    Step sv (diag_blocked sv d cur).2 := by
  simp only [diag_blocked]
  by_cases hcc : sv.corner_cut = false
  · rw [if_pos hcc]
    by_cases h1 : (jc_pair sv (cur.1 - d.1, cur.2) (cur.1, cur.2 - d.2)).1 = true
    · rw [if_pos h1]
      exact jc_pair_step ..
    · rw [if_neg h1]
      exact step_trans (jc_pair_step ..) (jc_both_step ..)
  · rw [if_neg hcc]
    rw [if_neg (by simp : ¬((false, sv) : Bool × JPSState).1 = true)]
    exact jc_both_step ..

/-- The tail of a continuing diagonal iteration is a legitimate step and
always continues with exactly the stepped position and cost. -/
theorem diag_tail_ok (cf : ℕ) (s2 : JPSState) (d cur : Coord) (cost : PVal)
    (hfin : NonNegFin (s2.processed cur)) {st : JPSState}
    {tag : Option (Coord × PVal)}
    (h : diag_tail cf s2 d cur cost = some (st, tag)) :
    Step s2 st ∧ tag = some (cur, cost) := by
  simp only [diag_tail] at h
  set jc : Bool × JPSState := (if s2.corner_cut = true then
    jc_pair s2 (cur.1 - d.1, cur.2) (cur.1, cur.2 - d.2)
    else (false, s2)) with hjc
  have hjcs : Step s2 jc.2 := by
    rw [hjc]
    by_cases hcc2 : s2.corner_cut = true
    · rw [if_pos hcc2]
      exact jc_pair_step ..
    · rw [if_neg hcc2]
      exact step_refl s2
  set s3 : JPSState := (if jc.1 then enqueue_search jc.2 cur else jc.2)
    with hs3
  have hfin3 : NonNegFin (jc.2.processed cur) :=
    stepWrites_nonNegFin hjcs.1 cur hfin
  have hins : Step jc.2 s3 := by
    rw [hs3]
    split
    · exact step_enqueue cur hfin3
    · exact step_refl _
  have hfin4 : NonNegFin (s3.processed cur) :=
    stepWrites_nonNegFin hins.1 cur hfin3
  have hbase : Step s2 s3 := step_trans hjcs hins
  rcases hc4 : explore_cardinal cf s3 cur (d.1, 0) cur (s3.processed cur)
    with - | s4
  · rw [hc4] at h
    exact absurd h (by simp)
  · simp only [hc4] at h
    have hstep4 : Step s3 s4 := explore_cardinal_ok cf s3 cur (d.1, 0) cur _
      s4 (nonNegFin_nonneg hfin4) hc4
    have hfin5 : NonNegFin (s4.processed cur) :=
      stepWrites_nonNegFin hstep4.1 cur hfin4
    rcases hc5 : explore_cardinal cf s4 cur (0, d.2) cur (s4.processed cur)
      with - | s5
    · rw [hc5] at h
      exact absurd h (by simp)
    · simp only [hc5] at h
      have hstep5 : Step s4 s5 := explore_cardinal_ok cf s4 cur (0, d.2) cur _
        s5 (nonNegFin_nonneg hfin5) hc5
      have hp := Option.some.inj h
      rw [Prod.mk.injEq] at hp
      obtain ⟨rfl, rfl⟩ := hp
      exact ⟨step_trans hbase (step_trans hstep4 hstep5), rfl⟩

/-- The body of one diagonal iteration is a legitimate step, and a
continuation hands back exactly the stepped position and cost. -/
theorem diagonal_iter_at_ok (cf : ℕ) (s : JPSState) (start d cur : Coord)
    (cost : PVal) (out : Option (JPSState × Option (Coord × PVal)))
    (hcost : (0 : PVal) ≤ cost)
    (h : diagonal_iter_at cf s start d cur cost = out) :
    ∀ st tag, out = some (st, tag) → Step s st ∧
      ∀ cur' cost', tag = some (cur', cost') → (0 : PVal) ≤ cost' := by
  intro st tag hout
  rw [hout] at h
  simp only [diagonal_iter_at] at h
  split at h
  · have hp := Option.some.inj h
    rw [Prod.mk.injEq] at hp
    obtain ⟨rfl, rfl⟩ := hp
    exact ⟨step_refl s, by simp⟩
  · split at h
    · have hp := Option.some.inj h
      rw [Prod.mk.injEq] at hp
      obtain ⟨rfl, rfl⟩ := hp
      exact ⟨step_visit .., by simp⟩
    · set sv : JPSState := (visit_cell s cur).2 with hsv
      set b : Bool × JPSState := diag_blocked sv d cur with hb
      have h01 : Step s sv := by
        rw [hsv]
        exact step_visit s cur
      have hbstep : Step sv b.2 := by
        rw [hb]
        exact diag_blocked_step sv d cur
      have h0b : Step s b.2 := step_trans h01 hbstep
      split at h
      · have hp := Option.some.inj h
        rw [Prod.mk.injEq] at hp
        obtain ⟨rfl, rfl⟩ := hp
        exact ⟨h0b, by simp⟩
      · split at h
        · have hp := Option.some.inj h
          rw [Prod.mk.injEq] at hp
          obtain ⟨rfl, rfl⟩ := hp
          exact ⟨h0b, by simp⟩
        · next hdom =>
          have hlt := not_le.mp hdom
          have hnu0 : sv.processed cur ≠ UNINITIALIZED := by
            rw [hsv, visit_cell_processed_self]
            exact visit_cell_fst_ne_uninit s cur
          have hnu : b.2.processed cur ≠ UNINITIALIZED :=
            stepWrites_ne_uninit hbstep.1 cur hnu0
          set s1 : JPSState := { b.2 with
            processed := updf b.2.processed cur cost,
            parents := updf b.2.parents cur (some start) } with hs1
          have hw : Step b.2 s1 := by
            rw [hs1]
            exact step_write hlt hnu hcost
          set s2 : JPSState := (if cur ∈ s1.goal_set ∧ cost < s1.goal_cost
            then { s1 with goal := some cur, goal_cost := cost }
            else s1) with hs2
          have hgu : Step s1 s2 := by
            rw [hs2]
            split
            · exact step_set_goal ..
            · exact step_refl _
          have hbase : Step s s2 := step_trans h0b (step_trans hw hgu)
          split at h
          · have hp := Option.some.inj h
            rw [Prod.mk.injEq] at hp
            obtain ⟨rfl, rfl⟩ := hp
            exact ⟨hbase, by simp⟩
          · have hfin1 : NonNegFin (s1.processed cur) := by
              rw [hs1]
              show NonNegFin (updf b.2.processed cur cost cur)
              rw [updf_self]
              exact nonNegFin_of_lt_nonneg hlt hcost
            have hfin2 : NonNegFin (s2.processed cur) :=
              stepWrites_nonNegFin hgu.1 cur hfin1
            obtain ⟨htail, rfl⟩ := diag_tail_ok cf s2 d cur cost hfin2 h
            refine ⟨step_trans hbase htail, ?_⟩
            intro c'' co'' hh
            simp only [Option.some.injEq, Prod.mk.injEq] at hh
            rw [← hh.2]
            exact hcost

/-- One diagonal iteration is a legitimate step and keeps the running cost
nonnegative. -/
theorem diagonal_iter_ok (cf : ℕ) (s : JPSState) (start d cur : Coord)
    (cost : PVal) (out : Option (JPSState × Option (Coord × PVal)))
    (hcost : (0 : PVal) ≤ cost) (hdc : (0 : ℚ) ≤ s.diagonal_cost)
    (h : diagonal_iter cf s start d cur cost = out) :
    ∀ st tag, out = some (st, tag) → Step s st ∧
      ∀ cur' cost', tag = some (cur', cost') → (0 : PVal) ≤ cost' := by
  have hcost' : (0 : PVal) ≤ cost + ((s.diagonal_cost : ℚ) : PVal) :=
    add_nonneg hcost (by exact_mod_cast hdc)
  rw [diagonal_iter] at h
  exact diagonal_iter_at_ok cf s start d _ _ out hcost' h

/-- The diagonal explorer only performs legitimate steps. -/
theorem explore_diagonal_ok :
    ∀ (fuel cf : ℕ) (s : JPSState) (start d cur : Coord) (cost : PVal)
      (s' : JPSState), (0 : PVal) ≤ cost → (0 : ℚ) ≤ s.diagonal_cost →
    explore_diagonal cf fuel s start d cur cost = some s' → Step s s' := by
  intro fuel
  induction fuel with
  | zero =>
    intro cf s start d cur cost s' hc hdc h
    exact absurd h (by simp [explore_diagonal])
  | succ fuel ih =>
    intro cf s start d cur cost s' hc hdc h
    rw [explore_diagonal] at h
    rcases hiter : diagonal_iter cf s start d cur cost with - | ⟨sI, co⟩
    · rw [hiter] at h
      exact absurd h (by simp)
    · rw [hiter] at h
      obtain ⟨hstep, hcont⟩ := diagonal_iter_ok cf s start d cur cost _
        hc hdc hiter sI co rfl
      cases co with
      | none =>
        obtain rfl := Option.some.inj h
        exact hstep
      | some pair =>
        rcases pair with ⟨cur', cost'⟩
        have hdc' : (0 : ℚ) ≤ sI.diagonal_cost := by
          rw [hstep.2.1.2.2.1]
          exact hdc
        exact step_trans hstep
          (ih cf sI start d cur' cost' s' (hcont cur' cost' rfl) hdc' h)

theorem configEq_dc {s s' : JPSState} (h : ConfigEq s s') :
    s'.diagonal_cost = s.diagonal_cost := h.2.2.1

theorem configEq_resumable {s s' : JPSState} (h : ConfigEq s s') :
    s'.resumable = s.resumable := h.2.2.2.2.2.2

/-- The eight explorations fired from one popped cell form a legitimate
step. -/
theorem explore8_ok (cf : ℕ) (s : JPSState) (p : Coord) (s8 : JPSState)
    (hp : NonNegFin (s.processed p)) (hdc : (0 : ℚ) ≤ s.diagonal_cost)
    (h : explore8 cf s p = some s8) : Step s s8 := by
  simp only [explore8] at h
  rw [Option.bind_eq_some] at h
  obtain ⟨s1, h1, h⟩ := h
  have hs1 : Step s s1 := explore_cardinal_ok cf s p (1, 0) p _ s1
    (nonNegFin_nonneg hp) h1
  have hp1 : NonNegFin (s1.processed p) := stepWrites_nonNegFin hs1.1 p hp
  have hdc1 : (0 : ℚ) ≤ s1.diagonal_cost := by
    rw [configEq_dc hs1.2.1]
    exact hdc
  rw [Option.bind_eq_some] at h
  obtain ⟨s2, h2, h⟩ := h
  have hs2 : Step s1 s2 := explore_cardinal_ok cf s1 p (-1, 0) p _ s2
    (nonNegFin_nonneg hp1) h2
  have hp2 : NonNegFin (s2.processed p) := stepWrites_nonNegFin hs2.1 p hp1
  have hdc2 : (0 : ℚ) ≤ s2.diagonal_cost := by
    rw [configEq_dc hs2.2.1]
    exact hdc1
  rw [Option.bind_eq_some] at h
  obtain ⟨s3, h3, h⟩ := h
  have hs3 : Step s2 s3 := explore_cardinal_ok cf s2 p (0, 1) p _ s3
    (nonNegFin_nonneg hp2) h3
  have hp3 : NonNegFin (s3.processed p) := stepWrites_nonNegFin hs3.1 p hp2
  have hdc3 : (0 : ℚ) ≤ s3.diagonal_cost := by
    rw [configEq_dc hs3.2.1]
    exact hdc2
  rw [Option.bind_eq_some] at h
  obtain ⟨s4, h4, h⟩ := h
  have hs4 : Step s3 s4 := explore_cardinal_ok cf s3 p (0, -1) p _ s4
    (nonNegFin_nonneg hp3) h4
  have hp4 : NonNegFin (s4.processed p) := stepWrites_nonNegFin hs4.1 p hp3
  have hdc4 : (0 : ℚ) ≤ s4.diagonal_cost := by
    rw [configEq_dc hs4.2.1]
    exact hdc3
  rw [Option.bind_eq_some] at h
  obtain ⟨s5, h5, h⟩ := h
  have hs5 : Step s4 s5 := explore_diagonal_ok cf cf s4 p (1, 1) p _ s5
    (nonNegFin_nonneg hp4) hdc4 h5
  have hp5 : NonNegFin (s5.processed p) := stepWrites_nonNegFin hs5.1 p hp4
  have hdc5 : (0 : ℚ) ≤ s5.diagonal_cost := by
    rw [configEq_dc hs5.2.1]
    exact hdc4
  rw [Option.bind_eq_some] at h
  obtain ⟨s6, h6, h⟩ := h
  have hs6 : Step s5 s6 := explore_diagonal_ok cf cf s5 p (1, -1) p _ s6
    (nonNegFin_nonneg hp5) hdc5 h6
  have hp6 : NonNegFin (s6.processed p) := stepWrites_nonNegFin hs6.1 p hp5
  have hdc6 : (0 : ℚ) ≤ s6.diagonal_cost := by
    rw [configEq_dc hs6.2.1]
    exact hdc5
  rw [Option.bind_eq_some] at h
  obtain ⟨s7, h7, h⟩ := h
  have hs7 : Step s6 s7 := explore_diagonal_ok cf cf s6 p (-1, 1) p _ s7
    (nonNegFin_nonneg hp6) hdc6 h7
  have hp7 : NonNegFin (s7.processed p) := stepWrites_nonNegFin hs7.1 p hp6
  have hdc7 : (0 : ℚ) ≤ s7.diagonal_cost := by
    rw [configEq_dc hs7.2.1]
    exact hdc6
  have hs8 : Step s7 s8 := explore_diagonal_ok cf cf s7 p (-1, -1) p _ s8
    (nonNegFin_nonneg hp7) hdc7 h
  exact step_trans hs1 (step_trans hs2 (step_trans hs3 (step_trans hs4
    (step_trans hs5 (step_trans hs6 (step_trans hs7 hs8))))))

/-- The search loop can only finish cleanly or with the no-path error:
in particular the `KeyError` of `pop_task` is unreachable, because each pop
is guarded by the emptiness check of the loop head. -/
theorem jps_errs :
    ∀ (fuel cf : ℕ) (s : JPSState) (r : JPSState × Option Err),
    jps cf fuel s = some r → r.2 = none ∨ r.2 = some Err.noPath := by
  intro fuel
  induction fuel with
  | zero =>
    intro cf s r h
    exact absurd h (by simp [jps])
  | succ fuel ih =>
    intro cf s r h
    rw [jps] at h
    split at h
    · next hne =>
      have hnil : s.pq.pq ≠ [] := by
        intro hn
        rw [FPQ.isEmpty] at hne
        simp [hn] at hne
      rcases hpop : s.pq.pop_task with e | pr
      · rw [FPQ.pop_task, if_neg hnil] at hpop
        exact absurd hpop (by simp)
      · rcases pr with ⟨p, pq'⟩
        simp only [hpop] at h
        rcases h8 : explore8 cf { s with pq := pq' } p with - | s8
        · rw [h8] at h
          exact absurd h (by simp)
        · simp only [h8] at h
          split at h
          · obtain rfl := Option.some.inj h
            exact Or.inl rfl
          · exact ih cf s8 r h
    · split at h
      · obtain rfl := Option.some.inj h
        exact Or.inr rfl
      · obtain rfl := Option.some.inj h
        exact Or.inl rfl

/-- Main-loop invariant and the exact characterization of the no-path
error: the loop raises it precisely when the queue is exhausted while the
best goal cost is still infinite. -/
theorem jps_ok :
    ∀ (fuel cf : ℕ) (s : JPSState) (r : JPSState × Option Err),
    PQOk s → (0 : ℚ) ≤ s.diagonal_cost → jps cf fuel s = some r →
    Step s r.1 ∧
      (r.2 = some Err.noPath ↔ r.1.pq.pq = [] ∧ r.1.goal_cost = ⊤) := by
  intro fuel
  induction fuel with
  | zero =>
    intro cf s r hq hdc h
    exact absurd h (by simp [jps])
  | succ fuel ih =>
    intro cf s r hq hdc h
    rw [jps] at h
    split at h
    · next hne =>
      have hnil : s.pq.pq ≠ [] := by
        intro hn
        rw [FPQ.isEmpty] at hne
        simp [hn] at hne
      rcases hpop : s.pq.pop_task with e | pr
      · rw [FPQ.pop_task, if_neg hnil] at hpop
        exact absurd hpop (by simp)
      · rcases pr with ⟨p, pq'⟩
        simp only [hpop] at h
        obtain ⟨hwf', -, e, hmem, htask, hperm, -⟩ :=
          FPQ.wf_pop_task hq.1 hpop
        have hfinp0 : NonNegFin (s.processed p) := htask ▸ hq.2 e hmem
        have hq0 : PQOk { s with pq := pq' } := by
          refine ⟨hwf', ?_⟩
          intro e' he'
          exact hq.2 e' (hperm.mem_iff.mp (List.mem_cons_of_mem _ he'))
        have hstep0 : Step s { s with pq := pq' } :=
          ⟨fun _ => Or.inl rfl, ⟨rfl, rfl, rfl, rfl, rfl, rfl, rfl⟩,
            fun _ => hq0⟩
        rcases h8 : explore8 cf { s with pq := pq' } p with - | s8
        · rw [h8] at h
          exact absurd h (by simp)
        · simp only [h8] at h
          have hstep8 : Step { s with pq := pq' } s8 :=
            explore8_ok cf _ p s8 hfinp0 hdc h8
          have hS : Step s s8 := step_trans hstep0 hstep8
          have hfinp : NonNegFin (s8.processed p) :=
            stepWrites_nonNegFin hstep8.1 p hfinp0
          split at h
          · next hterm =>
            obtain rfl := Option.some.inj h
            refine ⟨hS, iff_of_false (by simp) ?_⟩
            rintro ⟨-, hgc⟩
            obtain ⟨c, -, hcv⟩ := hfinp
            rw [hgc, hcv] at hterm
            exact WithTop.coe_ne_top (top_le_iff.mp hterm)
          · have hq8 : PQOk s8 := hS.2.2 hq
            have hdc8 : (0 : ℚ) ≤ s8.diagonal_cost := by
              rw [configEq_dc hS.2.1]
              exact hdc
            obtain ⟨hstepr, hiff⟩ := ih cf s8 r hq8 hdc8 h
            exact ⟨step_trans hS hstepr, hiff⟩
    · next hne =>
      have hnil : s.pq.pq = [] := by
        rw [FPQ.isEmpty] at hne
        simp only [Bool.not_eq_false, decide_eq_true_eq] at hne
        exact List.length_eq_zero.mp hne
      split at h
      · next hgc =>
        obtain rfl := Option.some.inj h
        exact ⟨step_refl s, iff_of_true rfl ⟨hnil, hgc⟩⟩
      · next hgc =>
        obtain rfl := Option.some.inj h
        exact ⟨step_refl s, iff_of_false (by simp) fun hc => hgc hc.2⟩

/-- Equality of concrete `Except` results is decidable (used to evaluate
the embedding on the repository's test fixtures). -/
instance {e a : Type} [DecidableEq e] [DecidableEq a] :
    DecidableEq (Except e a) := fun x y =>
  match x, y with
  | .error u, .error v =>
    if h : u = v then isTrue (by rw [h]) else
      isFalse (fun hc => h (Except.error.inj hc))
  | .ok u, .ok v =>
    if h : u = v then isTrue (by rw [h]) else
      isFalse (fun hc => h (Except.ok.inj hc))
  | .error _, .ok _ => isFalse (fun hc => Except.noConfusion hc)
  | .ok _, .error _ => isFalse (fun hc => Except.noConfusion hc)

/-- The raw grid of `src/test/maps/tiny.map` (5 columns of 5 cells, indexed
`grid[x][y]`): a border of obstacles around a walkable interior, with two
interior obstacles at `(2, 1)` and `(2, 2)`. -/
def tinyGrid : List (List PVal) :=
  [[OBSTACLE, OBSTACLE, OBSTACLE, OBSTACLE, OBSTACLE],
   [OBSTACLE, WALKABLE, WALKABLE, WALKABLE, OBSTACLE],
   [OBSTACLE, OBSTACLE, OBSTACLE, WALKABLE, OBSTACLE],
   [OBSTACLE, WALKABLE, WALKABLE, WALKABLE, OBSTACLE],
   [OBSTACLE, OBSTACLE, OBSTACLE, OBSTACLE, OBSTACLE]]

/-- A 5 by 5 grid with a single interior obstacle at `(2, 3)`, used to probe
the cardinal jump-point rule. -/
def c4Grid : List (List PVal) :=
  [[OBSTACLE, OBSTACLE, OBSTACLE, OBSTACLE, OBSTACLE],
   [OBSTACLE, WALKABLE, WALKABLE, WALKABLE, OBSTACLE],
   [OBSTACLE, WALKABLE, WALKABLE, OBSTACLE, OBSTACLE],
   [OBSTACLE, WALKABLE, WALKABLE, WALKABLE, OBSTACLE],
   [OBSTACLE, OBSTACLE, OBSTACLE, OBSTACLE, OBSTACLE]]

/-- An inert placeholder state (only consumed by `mkS`/`c4S` in the branch
`init` provably never takes). -/
def dummyS : JPSState :=
  { raw := fun _ => OBSTACLE, processed := fun _ => UNINITIALIZED,
    parents := fun _ => none, pq := FPQ.empty, resume_pq := FPQ.empty,
    goal := none, goal_cost := WALKABLE, corner_cut := false,
    diagonal_cost := 0, walkable_fcn := none, heuristic_fcn := none,
    goal_set := [], resumable := false }

/-- The field of the repository's tests: `tiny.map` with start `(1, 1)`. -/
def mkS (cc : Bool) (dc : ℚ) (res : Bool) : JPSState :=
  match init (rawOfGrid tinyGrid) 1 1 cc dc none none res with
  | .ok s => s
  | .error _ => dummyS

/-- A field on `c4Grid` with start `(1, 2)`, corner cutting disabled. -/
def c4S : JPSState :=
  match init (rawOfGrid c4Grid) 1 2 false (707/500) none none false with
  | .ok s => s
  | .error _ => dummyS

/-- Spec-modelled (from §4 of the specification, not from the code): the
octile distance from `p` to `g` under diagonal cost `dc`,
`min(dx, dy) * diagonal_cost + (max(dx, dy) - min(dx, dy))`. -/
def spec_octile (dc : ℚ) (p g : Coord) : ℚ :=
  min ((g.1 - p.1).natAbs : ℚ) ((g.2 - p.2).natAbs : ℚ) * dc +
    (max ((g.1 - p.1).natAbs : ℚ) ((g.2 - p.2).natAbs : ℚ) -
      min ((g.1 - p.1).natAbs : ℚ) ((g.2 - p.2).natAbs : ℚ))

/-- Spec-modelled: the minimum octile distance over the active goal set
(`none` on an empty set), the value the specification says the default
heuristic returns, for comparison with the code's `default_heuristic`. -/
def spec_min_octile (dc : ℚ) (gs : List Coord) (p : Coord) : Option ℚ :=
  (gs.map (spec_octile dc p)).foldr
    (fun a b => match b with
      | none => some a
      | some c => some (min a c)) none

end JPS

namespace JPS

set_option maxRecDepth 40000

/-- The second cell visit of a short-circuit pair never changes what any
later visit classifies. -/
theorem jc_pair_stable (s : JPSState) (a b x : Coord) :
    visitVal (jc_pair s a b).2 x = visitVal s x := by
  unfold jc_pair
  by_cases h : (visit_cell s a).1 = OBSTACLE
  · rw [if_pos h]
    exact visitVal_stable s a x
  · rw [if_neg h]
    rw [show ((decide ((visit_cell (visit_cell s a).2 b).1 = OBSTACLE),
        (visit_cell (visit_cell s a).2 b).2) : Bool × JPSState).2 =
        (visit_cell (visit_cell s a).2 b).2 from rfl]
    rw [visitVal_stable, visitVal_stable]

/-- C1: on the tiny test map with start `(1, 1)` and the mixed goal set
`[(0, 0), (1, 2)]` — the border cell `(0, 0)` being an obstacle — the goal
filter does resolve the set to `[(1, 2)]`, yet the returned jump-point path
is `[(0, 0)]`: it neither starts at the start coordinate nor ends in the
resolved goal set (the goal minimum of line 87 runs over the unfiltered
set), and the reported path length is `-1`. -/
theorem claim1_min_over_unfiltered_goals :
    (filter_goals (mkS false (707/500) false) [(0, 0), (1, 2)]).1 = [(1, 2)] ∧
    visitVal (mkS false (707/500) false) (0, 0) = OBSTACLE ∧
    (get_jump_point_path 32 32 (mkS false (707/500) false)
        [(0, 0), (1, 2)]).map (fun r => r.2) = some (.ok [(0, 0)]) ∧
    (get_path_length 32 32 (mkS false (707/500) false)
        [(0, 0), (1, 2)]).map (fun r => r.2) =
      some (.ok (((-1 : ℚ) : PVal))) := by
  refine ⟨by with_unfolding_all decide, by with_unfolding_all decide, by with_unfolding_all decide, by with_unfolding_all decide⟩

/-- C2 (amended): the cost-based break of the main loop is unconditional —
whenever a pop succeeds and the expansion leaves the popped cell's cached
cost at or above the best goal cost, the loop returns cleanly, with no
hypothesis on `resumable`. -/
theorem claim2_break_unconditional (cf fuel : ℕ) (s : JPSState) (p : Coord)
    (pq' : FPQ) (s8 : JPSState)
    (hne : s.pq.isEmpty = false)
    (hpop : s.pq.pop_task = .ok (p, pq'))
    (h8 : explore8 cf { s with pq := pq' } p = some s8)
    (hterm : s8.goal_cost ≤ s8.processed p) :
    jps cf (fuel + 1) s = some (s8, none) := by
  rw [jps, if_pos hne]
  simp only [hpop, h8]
  rw [if_pos hterm]

/-- A resumable field over the tiny map whose best goal cost is already 0,
with the start as only goal. -/
def sQ2 : JPSState :=
  { mkS false (707/500) true with
      goal_set := [(1, 1)], goal_cost := ((0 : ℚ) : PVal) }

/-- The queue left behind by popping the sole task of `sQ2`. -/
def sQ2p : JPSState := { sQ2 with pq := ⟨[], 1⟩ }

/-- Witness for the amended C2: the break fires on a field built with
`resumable = True`. -/
theorem claim2_break_unconditional_witness :
    sQ2.resumable = true ∧ sQ2.pq.isEmpty = false ∧
    jps 9 (0 + 1) sQ2 =
      (explore8 9 sQ2p (1, 1)).map (fun s8 => (s8, none)) := by
  refine ⟨by with_unfolding_all decide, by with_unfolding_all decide, ?_⟩
  rcases h8 : explore8 9 sQ2p (1, 1) with - | s8
  · have hs : (explore8 9 sQ2p (1, 1)).isSome = true := by with_unfolding_all rfl
    rw [h8] at hs
    exact absurd hs (by simp)
  · have hterm : s8.goal_cost ≤ s8.processed (1, 1) := by
      have hx : (explore8 9 sQ2p (1, 1)).map
          (fun t => decide (t.goal_cost ≤ t.processed (1, 1))) = some true := by
        with_unfolding_all decide
      rw [h8] at hx
      simp only [Option.map_some'] at hx
      exact of_decide_eq_true (Option.some.inj hx)
    simp only [Option.map_some']
    exact claim2_break_unconditional 9 0 sQ2 (1, 1) ⟨[], 1⟩ s8 (by with_unfolding_all decide)
      (by with_unfolding_all decide) h8 hterm

/-- C2 counterexample to the claimed `resumable` exception: a query on a
field built with `resumable = True` still terminates on the cost test,
returning a path while tasks are still queued — the loop did not keep
expanding until the queue emptied. -/
theorem claim2_resumable_counterexample :
    (get_jump_point_path 32 32 (mkS false (707/500) true) [(1, 3)]).map
      (fun r => (r.1.resumable, r.2, r.1.pq.pq.map Entry.task)) =
    some (true, .ok [(1, 1), (1, 3)], [(2, 3), (3, 3)]) := by with_unfolding_all decide

/-- C3: the default heuristic evaluates to `0` (the seed of its running
minimum) even where the specified minimum octile distance is `11/2`:
queried at `(0, 0)` against the goal set `[(3, 4)]` with diagonal cost
`3/2`. -/
theorem claim3_default_heuristic_zero :
    default_heuristic
        { dummyS with goal_set := [(3, 4)], diagonal_cost := 3/2 } (0, 0) =
      ((0 : ℚ) : PVal) ∧
    spec_min_octile (3/2) [(3, 4)] (0, 0) = some (11/2) ∧
    (0 : ℚ) ≠ 11/2 := by
  refine ⟨by with_unfolding_all decide, by with_unfolding_all decide, by norm_num⟩

end JPS

namespace JPS

set_option maxRecDepth 40000

/-- C4 (amended): with corner-cutting disabled, the cardinal jump-point
test checks the two cells beside the PREDECESSOR cell `cur - d` (one step
back along the ray), with no condition on any diagonal-forward cell: a
horizontal ray marks `cur` iff a cell above or below `cur - d` is an
obstacle, symmetrically for vertical rays; and `_enqueue_search` pushes a
cell with priority `processed + heuristic`. -/
theorem claim4_cardinal_rule_amended :
    (∀ (s : JPSState) (cur d : Coord), s.corner_cut = false → d.2 = 0 →
      d.1 ≠ 0 →
      ((cardinal_jump_check s cur d).1 = true ↔
        visitVal s (cur.1 - d.1, cur.2 + 1) = OBSTACLE ∨
        visitVal s (cur.1 - d.1, cur.2 - 1) = OBSTACLE)) ∧
    (∀ (s : JPSState) (cur d : Coord), s.corner_cut = false → d.1 = 0 →
      d.2 ≠ 0 →
      ((cardinal_jump_check s cur d).1 = true ↔
        visitVal s (cur.1 + 1, cur.2 - d.2) = OBSTACLE ∨
        visitVal s (cur.1 - 1, cur.2 - d.2) = OBSTACLE)) ∧
    (∀ (s : JPSState) (p : Coord), HeapInv s.pq.pq →
      ∃ e : Entry, e.task = p ∧
        e.priority = s.processed p + heuristicOf s p ∧
        (enqueue_search s p).pq.pq.Perm (e :: s.pq.pq) ∧
        (enqueue_search s p).pq.counter = s.pq.counter + 1) := by
  refine ⟨?_, ?_, ?_⟩
  · intro s cur d hcc hdy hdx
    have hstep : cardinal_jump_check s cur d =
        jc_pair s (cur.1 - d.1, cur.2 + 1) (cur.1 - d.1, cur.2 - 1) := by
      simp only [cardinal_jump_check, if_pos hcc, if_neg hdx, if_pos hdy]
      simp
    rw [hstep]
    exact jc_pair_fst ..
  · intro s cur d hcc hd1 hd2
    have hstep : (cardinal_jump_check s cur d).1 =
        (jc_pair s (cur.1 + 1, cur.2 - d.2) (cur.1 - 1, cur.2 - d.2)).1 := by
      simp only [cardinal_jump_check, if_pos hcc, if_pos hd1]
      by_cases hb :
          (jc_pair s (cur.1 + 1, cur.2 - d.2) (cur.1 - 1, cur.2 - d.2)).1 = true
      · rw [if_pos hb]
      · rw [if_neg hb, if_neg hd2]
        simp only [Bool.not_eq_true] at hb
        rw [hb]
    rw [hstep]
    exact jc_pair_fst ..
  · intro s p hinv
    refine ⟨⟨s.processed p + heuristicOf s p, s.pq.counter, p⟩, rfl, rfl,
      ?_, rfl⟩
    exact (heappush_spec hinv _).2.2

/-- Witness for the amended C4, on the `c4Grid` scenario: the horizontal
rule instantiated at `cur = (2, 2)`, `d = (1, 0)` — the checked cells are
`(1, 3)` and `(1, 1)` beside the predecessor, both walkable, so the test is
false even though the cell above `(2, 2)` is an obstacle. -/
theorem claim4_cardinal_rule_witness :
    ((cardinal_jump_check c4S (2, 2) (1, 0)).1 = true ↔
      visitVal c4S (1, 3) = OBSTACLE ∨ visitVal c4S (1, 1) = OBSTACLE) ∧
    (cardinal_jump_check c4S (2, 2) (1, 0)).1 = false := by
  constructor
  · exact claim4_cardinal_rule_amended.1 c4S (2, 2) (1, 0)
      (by with_unfolding_all decide) rfl (by decide)
  · with_unfolding_all decide

/-- C4 counterexample to the claimed rule: on `c4Grid`, the cell directly
above `c = (2, 2)` is an obstacle and the diagonal-forward cell `(3, 3)` is
not, so per the claim `c` is a jump point and must be enqueued; the actual
cardinal exploration from `(1, 2)` along `(1, 0)` steps through `(2, 2)`
(writing cost `1`) without ever enqueueing it. -/
theorem claim4_spec_rule_counterexample :
    visitVal c4S (2, 3) = OBSTACLE ∧ visitVal c4S (3, 3) ≠ OBSTACLE ∧
    (explore_cardinal 9 c4S (1, 2) (1, 0) (1, 2) ((0 : ℚ) : PVal)).map
      (fun t => (t.processed (2, 2), (t.pq.pq.map Entry.task).contains (2, 2)))
      = some (((1 : ℚ) : PVal), false) := by
  refine ⟨by with_unfolding_all decide, by with_unfolding_all decide,
    by with_unfolding_all decide⟩

/-- C5: the corner rules of the diagonal explorer — with corner-cutting
enabled a diagonal move into `cur` is blocked iff both orthogonal cells
beside the move are obstacles; with it disabled, iff at least one of them
is; a fully blocked corner is illegal under either policy; and a blocked
iteration ends the ray immediately (classification visits aside, no
further travel). -/
theorem claim5_diagonal_corner_policy :
    (∀ (sv : JPSState) (d cur : Coord), sv.corner_cut = true →
      ((diag_blocked sv d cur).1 = true ↔
        visitVal sv (cur.1 - d.1, cur.2) = OBSTACLE ∧
        visitVal sv (cur.1, cur.2 - d.2) = OBSTACLE)) ∧
    (∀ (sv : JPSState) (d cur : Coord), sv.corner_cut = false →
      ((diag_blocked sv d cur).1 = true ↔
        visitVal sv (cur.1 - d.1, cur.2) = OBSTACLE ∨
        visitVal sv (cur.1, cur.2 - d.2) = OBSTACLE)) ∧
    (∀ (sv : JPSState) (d cur : Coord),
      visitVal sv (cur.1 - d.1, cur.2) = OBSTACLE →
      visitVal sv (cur.1, cur.2 - d.2) = OBSTACLE →
      (diag_blocked sv d cur).1 = true) ∧
    (∀ (cf : ℕ) (s : JPSState) (start d cur : Coord) (cost : PVal),
      ¬ (s.goal_cost < cost ∧ s.resumable = false) →
      visitVal s cur ≠ OBSTACLE →
      (diag_blocked (visit_cell s cur).2 d cur).1 = true →
      diagonal_iter_at cf s start d cur cost =
        some ((diag_blocked (visit_cell s cur).2 d cur).2, none)) := by
  have hcc_true : ∀ (sv : JPSState) (d cur : Coord), sv.corner_cut = true →
      ((diag_blocked sv d cur).1 = true ↔
        visitVal sv (cur.1 - d.1, cur.2) = OBSTACLE ∧
        visitVal sv (cur.1, cur.2 - d.2) = OBSTACLE) := by
    intro sv d cur hcc
    have hncc : ¬ sv.corner_cut = false := by rw [hcc]; simp
    simp only [diag_blocked, if_neg hncc]
    rw [if_neg (by simp : ¬ ((false, sv) : Bool × JPSState).1 = true)]
    exact jc_both_fst ..
  have hcc_false : ∀ (sv : JPSState) (d cur : Coord), sv.corner_cut = false →
      ((diag_blocked sv d cur).1 = true ↔
        visitVal sv (cur.1 - d.1, cur.2) = OBSTACLE ∨
        visitVal sv (cur.1, cur.2 - d.2) = OBSTACLE) := by
    intro sv d cur hcc
    simp only [diag_blocked, if_pos hcc]
    by_cases hk :
        (jc_pair sv (cur.1 - d.1, cur.2) (cur.1, cur.2 - d.2)).1 = true
    · rw [if_pos hk]
      simp only [true_iff]
      exact (jc_pair_fst ..).mp hk
    · rw [if_neg hk]
      have hnone := (jc_pair_fst sv (cur.1 - d.1, cur.2)
        (cur.1, cur.2 - d.2)).not.mp hk
      constructor
      · intro hb
        have hboth := (jc_both_fst ..).mp hb
        rw [jc_pair_stable, jc_pair_stable] at hboth
        exact Or.inl hboth.1
      · intro hor
        exact absurd hor hnone
  refine ⟨hcc_true, hcc_false, ?_, ?_⟩
  · intro sv d cur h1 h2
    rcases Bool.eq_false_or_eq_true sv.corner_cut with hcc | hcc
    · exact (hcc_true sv d cur hcc).mpr ⟨h1, h2⟩
    · exact (hcc_false sv d cur hcc).mpr (Or.inl h1)
  · intro cf s start d cur cost hdom hobs hb
    have hobs2 : ¬ (visit_cell s cur).1 = OBSTACLE := hobs
    simp only [diagonal_iter_at, if_neg hdom]
    rw [if_neg hobs2, if_pos hb]

/-- Witness for C5, on the tiny map: the no-corner-cut policy instantiated
at the diagonal step into `(3, 2)` along `(1, 1)` — the orthogonal cell
`(2, 2)` is an obstacle, so the move is blocked and the iteration ends the
ray. -/
theorem claim5_diagonal_corner_policy_witness :
    ((diag_blocked (mkS false (707/500) false) (1, 1) (3, 2)).1 = true ↔
      visitVal (mkS false (707/500) false) (2, 2) = OBSTACLE ∨
      visitVal (mkS false (707/500) false) (3, 1) = OBSTACLE) ∧
    (diagonal_iter_at 9 (mkS false (707/500) false) (1, 1) (1, 1) (3, 2)
        ((2 : ℚ) : PVal)).map (fun t => t.2) = some none := by
  constructor
  · exact claim5_diagonal_corner_policy.2.1 (mkS false (707/500) false)
      (1, 1) (3, 2) (by with_unfolding_all decide)
  · have h := claim5_diagonal_corner_policy.2.2.2 9
      (mkS false (707/500) false) (1, 1) (1, 1) (3, 2) ((2 : ℚ) : PVal)
      (by with_unfolding_all decide) (by with_unfolding_all decide)
      (by with_unfolding_all decide)
    rw [h]
    rfl

end JPS

namespace JPS

set_option maxRecDepth 40000

/-- The tiny-map field after one classification visit of the obstacle
`(2, 2)`. -/
def s6fix : JPSState := (visit_cell (mkS false (707/500) false) (2, 2)).2

/-- C6: under each of the three cost-cache writers — `_visit_cell`, the
cardinal explorer and the diagonal explorer — a cell recorded as Obstacle
stays Obstacle, and the cached cost of any already-classified cell never
increases. -/
theorem claim6_cost_cache_monotone :
    (∀ (s : JPSState) (p q : Coord),
      (s.processed q = OBSTACLE → (visit_cell s p).2.processed q = OBSTACLE) ∧
      (s.processed q ≠ UNINITIALIZED →
        (visit_cell s p).2.processed q ≤ s.processed q)) ∧
    (∀ (fuel : ℕ) (s : JPSState) (start d cur : Coord) (cost : PVal)
        (s' : JPSState), (0 : PVal) ≤ cost →
      explore_cardinal fuel s start d cur cost = some s' →
      ∀ q : Coord,
        (s.processed q = OBSTACLE → s'.processed q = OBSTACLE) ∧
        (s.processed q ≠ UNINITIALIZED → s'.processed q ≤ s.processed q)) ∧
    (∀ (cf fuel : ℕ) (s : JPSState) (start d cur : Coord) (cost : PVal)
        (s' : JPSState), (0 : PVal) ≤ cost → (0 : ℚ) ≤ s.diagonal_cost →
      explore_diagonal cf fuel s start d cur cost = some s' →
      ∀ q : Coord,
        (s.processed q = OBSTACLE → s'.processed q = OBSTACLE) ∧
        (s.processed q ≠ UNINITIALIZED → s'.processed q ≤ s.processed q)) := by
  refine ⟨?_, ?_, ?_⟩
  · intro s p q
    exact ⟨stepWrites_obstacle (visit_cell_sw s p) q,
      stepWrites_mono (visit_cell_sw s p) q⟩
  · intro fuel s start d cur cost s' hc h q
    have hsw := (explore_cardinal_ok fuel s start d cur cost s' hc h).1
    exact ⟨stepWrites_obstacle hsw q, stepWrites_mono hsw q⟩
  · intro cf fuel s start d cur cost s' hc hdc h q
    have hsw := (explore_diagonal_ok fuel cf s start d cur cost s' hc hdc h).1
    exact ⟨stepWrites_obstacle hsw q, stepWrites_mono hsw q⟩

/-- Witness for C6: on the tiny map, a later visit leaves the recorded
obstacle `(2, 2)` untouched and does not increase the start's cached 0. -/
theorem claim6_cost_cache_monotone_witness :
    (visit_cell s6fix (1, 2)).2.processed (2, 2) = OBSTACLE ∧
    (visit_cell s6fix (1, 2)).2.processed (1, 1) ≤ s6fix.processed (1, 1) :=
  ⟨(claim6_cost_cache_monotone.1 s6fix (1, 2) (2, 2)).1
      (by with_unfolding_all decide),
   (claim6_cost_cache_monotone.1 s6fix (1, 2) (1, 1)).2
      (by with_unfolding_all decide)⟩

/-- C8: the Frontier Queue — a fresh queue is well formed, `add_task`
preserves well-formedness, stamps the inserted entry with the current
counter and increments it, `pop_task` succeeds exactly on nonempty queues,
and the popped entry is minimal: strictly least priority, or least
insertion stamp among the entries tied for least priority (so expansion
order is a function of the insertion sequence alone). -/
theorem claim8_queue_pop_min_fifo :
    FPQ.WF FPQ.empty ∧
    (∀ (q : FPQ) (t : Coord) (p : PVal), q.WF → (q.add_task t p).WF) ∧
    (∀ (q : FPQ) (t : Coord) (p : PVal), q.WF →
      ∃ e : Entry, e.priority = p ∧ e.count = q.counter ∧ e.task = t ∧
        (q.add_task t p).pq.Perm (e :: q.pq) ∧
        (q.add_task t p).counter = q.counter + 1) ∧
    (∀ q : FPQ, q.pq ≠ [] → ∃ t q', q.pop_task = .ok (t, q')) ∧
    (∀ (q : FPQ) (t : Coord) (q' : FPQ), q.WF → q.pop_task = .ok (t, q') →
      q'.WF ∧ ∃ e ∈ q.pq, e.task = t ∧ (e :: q'.pq).Perm q.pq ∧
        ∀ e' ∈ q.pq, e' ≠ e → e.priority < e'.priority ∨
          (e.priority = e'.priority ∧ e.count < e'.count)) := by
  refine ⟨FPQ.wf_empty, ?_, ?_, ?_, ?_⟩
  · intro q t p h
    exact FPQ.wf_add_task h t p
  · intro q t p h
    exact ⟨⟨p, q.counter, t⟩, rfl, rfl, rfl, (heappush_spec h.1 _).2.2, rfl⟩
  · intro q hne
    exact ⟨_, _, FPQ.pop_task_of_ne hne⟩
  · intro q t q' hwf hpop
    obtain ⟨hwf', -, e, hmem, htask, hperm, hmin⟩ := FPQ.wf_pop_task hwf hpop
    exact ⟨hwf', e, hmem, htask, hperm, hmin⟩

/-- Two equal-priority insertions for the C8 witness. -/
def qW : FPQ :=
  (FPQ.empty.add_task (1, 1) ((5 : ℚ) : PVal)).add_task (2, 2) ((5 : ℚ) : PVal)

/-- Witness for C8: with two tasks queued at equal priority, the pop
returns the earlier insertion and a well-formed remainder. -/
theorem claim8_queue_pop_min_fifo_witness :
    qW.WF ∧
    qW.pop_task = .ok ((1, 1), ⟨[⟨((5 : ℚ) : PVal), 1, (2, 2)⟩], 2⟩) ∧
    (⟨[⟨((5 : ℚ) : PVal), 1, (2, 2)⟩], 2⟩ : FPQ).WF := by
  have hwf : qW.WF :=
    claim8_queue_pop_min_fifo.2.1 _ _ _
      (claim8_queue_pop_min_fifo.2.1 _ _ _ claim8_queue_pop_min_fifo.1)
  have hpop : qW.pop_task =
      .ok ((1, 1), ⟨[⟨((5 : ℚ) : PVal), 1, (2, 2)⟩], 2⟩) := by
    with_unfolding_all decide
  exact ⟨hwf, hpop,
    (claim8_queue_pop_min_fifo.2.2.2.2 qW (1, 1) _ hwf hpop).1⟩

/-- Classification of a `get_jump_point_path` outcome: no goal, no path, or
a path — never any other error. -/
theorem get_jump_point_path_errs :
    ∀ (cf fuel : ℕ) (s : JPSState) (goals : List Coord)
      (r : JPSState × Except Err (List Coord)),
    get_jump_point_path cf fuel s goals = some r →
    r.2 = .error Err.noGoal ∨ r.2 = .error Err.noPath ∨ ∃ p, r.2 = .ok p := by
  intro cf fuel s goals r h
  simp only [get_jump_point_path] at h
  split at h
  · obtain rfl := Option.some.inj h
    exact Or.inl rfl
  · split at h
    · obtain rfl := Option.some.inj h
      exact Or.inl rfl
    · split at h
      · split at h
        · exact absurd h (by simp)
        · obtain rfl := Option.some.inj h
          exact Or.inr (Or.inr ⟨_, rfl⟩)
      · split at h
        · exact absurd h (by simp)
        · next sE e heq =>
          obtain rfl := Option.some.inj h
          rcases jps_errs fuel cf _ _ heq with h0 | h0
          · exact absurd h0 (by simp)
          · obtain rfl := Option.some.inj h0
            exact Or.inr (Or.inl rfl)
        · split at h
          · exact absurd h (by simp)
          · obtain rfl := Option.some.inj h
            exact Or.inr (Or.inr ⟨_, rfl⟩)

/-- Classification of a `get_full_path` outcome. -/
theorem get_full_path_errs :
    ∀ (cf fuel : ℕ) (s : JPSState) (goals : List Coord)
      (r : JPSState × Except Err (List Coord)),
    get_full_path cf fuel s goals = some r →
    r.2 = .error Err.noGoal ∨ r.2 = .error Err.noPath ∨
      r.2 = .error Err.indexError ∨ ∃ p, r.2 = .ok p := by
  intro cf fuel s goals r h
  simp only [get_full_path] at h
  split at h
  · exact absurd h (by simp)
  · next sE e heq =>
    obtain rfl := Option.some.inj h
    rcases get_jump_point_path_errs cf fuel s goals _ heq with h0 | h0 | ⟨p, h0⟩
    · exact Or.inl h0
    · exact Or.inr (Or.inl h0)
    · exact absurd h0 (by simp)
  · split at h
    · obtain rfl := Option.some.inj h
      exact Or.inr (Or.inr (Or.inl rfl))
    · split at h
      · exact absurd h (by simp)
      · obtain rfl := Option.some.inj h
        exact Or.inr (Or.inr (Or.inr ⟨_, rfl⟩))

/-- Classification of a `get_path_length` outcome. -/
theorem get_path_length_errs :
    ∀ (cf fuel : ℕ) (s : JPSState) (goals : List Coord)
      (r : JPSState × Except Err PVal),
    get_path_length cf fuel s goals = some r →
    r.2 = .error Err.noGoal ∨ r.2 = .error Err.noPath ∨ ∃ p, r.2 = .ok p := by
  intro cf fuel s goals r h
  simp only [get_path_length] at h
  split at h
  · exact absurd h (by simp)
  · next sE e heq =>
    obtain rfl := Option.some.inj h
    rcases get_jump_point_path_errs cf fuel s goals _ heq with h0 | h0 | ⟨p, h0⟩
    · obtain rfl := Except.error.inj h0
      exact Or.inl rfl
    · obtain rfl := Except.error.inj h0
      exact Or.inr (Or.inl rfl)
    · exact absurd h0 (by simp)
  · obtain rfl := Option.some.inj h
    exact Or.inr (Or.inr ⟨_, rfl⟩)

/-- C10: `pop_task` raises only on an empty queue; the search loop guards
every pop with its emptiness check, so neither the loop nor any public
query function can surface the empty-queue `KeyError`. -/
theorem claim10_keyerror_unreachable :
    (∀ (q : FPQ) (e : Err), q.pop_task = .error e →
      q.pq = [] ∧ e = Err.keyError) ∧
    (∀ (cf fuel : ℕ) (s : JPSState) (r : JPSState × Option Err),
      jps cf fuel s = some r → r.2 ≠ some Err.keyError) ∧
    (∀ (cf fuel : ℕ) (s : JPSState) (goals : List Coord)
        (r : JPSState × Except Err (List Coord)),
      get_jump_point_path cf fuel s goals = some r →
      r.2 ≠ .error Err.keyError) ∧
    (∀ (cf fuel : ℕ) (s : JPSState) (goals : List Coord)
        (r : JPSState × Except Err (List Coord)),
      get_full_path cf fuel s goals = some r →
      r.2 ≠ .error Err.keyError) ∧
    (∀ (cf fuel : ℕ) (s : JPSState) (goals : List Coord)
        (r : JPSState × Except Err PVal),
      get_path_length cf fuel s goals = some r →
      r.2 ≠ .error Err.keyError) := by
  refine ⟨?_, ?_, ?_, ?_, ?_⟩
  · intro q e h
    rw [FPQ.pop_task] at h
    split at h
    · next hb => exact ⟨hb, (Except.error.inj h).symm⟩
    · exact absurd h (by simp)
  · intro cf fuel s r h
    rcases jps_errs fuel cf s r h with h0 | h0 <;> rw [h0] <;> simp
  · intro cf fuel s goals r h
    rcases get_jump_point_path_errs cf fuel s goals r h with h0 | h0 | ⟨p, h0⟩
      <;> rw [h0] <;> simp
  · intro cf fuel s goals r h
    rcases get_full_path_errs cf fuel s goals r h with h0 | h0 | h0 | ⟨p, h0⟩
      <;> rw [h0] <;> simp
  · intro cf fuel s goals r h
    rcases get_path_length_errs cf fuel s goals r h with h0 | h0 | ⟨p, h0⟩
      <;> rw [h0] <;> simp

/-- Witness for C10: the pop-error characterization applied to a concrete
empty queue. -/
theorem claim10_keyerror_unreachable_witness :
    (FPQ.mk [] 5).pq = [] ∧ Err.keyError = Err.keyError :=
  claim10_keyerror_unreachable.1 ⟨[], 5⟩ Err.keyError rfl

/-- The tiny-map query state of the repository's no-corner-cut test. -/
def sQ7 : JPSState := { mkS false (707/500) false with goal_set := [(3, 1)] }

theorem sQ7_pq_eq : sQ7.pq.pq = [⟨(⊤ : PVal), 0, (1, 1)⟩] := by
  with_unfolding_all decide

theorem pqok_sQ7 : PQOk sQ7 := by
  constructor
  · refine ⟨?_, ?_, ?_⟩
    · intro c hc hc0
      rw [sQ7_pq_eq] at hc
      have : c < 1 := by simpa using hc
      omega
    · intro e he
      rw [sQ7_pq_eq] at he
      obtain rfl := List.mem_singleton.mp he
      with_unfolding_all decide
    · rw [sQ7_pq_eq]
      simp
  · intro e he
    rw [sQ7_pq_eq] at he
    obtain rfl := List.mem_singleton.mp he
    exact ⟨0, le_refl 0, by with_unfolding_all decide⟩

theorem jps_sQ7_isSome : (jps 32 32 sQ7).isSome = true := by
  with_unfolding_all rfl

/-- C7: a run of the main loop ends with the no-path error exactly when the
queue has emptied while the best goal cost is still infinite; no other
error can be raised, and afterwards the field is intact — its configuration
and goal set are unchanged and its queue invariant still holds, so further
queries can proceed. -/
theorem claim7_nopath_iff_exhausted (cf fuel : ℕ) (s : JPSState)
    (r : JPSState × Option Err) (hq : PQOk s)
    (hdc : (0 : ℚ) ≤ s.diagonal_cost) (h : jps cf fuel s = some r) :
    (r.2 = some Err.noPath ↔ r.1.pq.pq = [] ∧ r.1.goal_cost = WALKABLE) ∧
    (r.2 = none ∨ r.2 = some Err.noPath) ∧
    ConfigEq s r.1 ∧ PQOk r.1 := by
  obtain ⟨hstep, hiff⟩ := jps_ok fuel cf s r hq hdc h
  exact ⟨hiff, jps_errs fuel cf s r h, hstep.2.1, hstep.2.2 hq⟩

/-- Witness for C7: the characterization applied to the tiny-map query. -/
theorem claim7_nopath_iff_exhausted_witness :
    (((jps 32 32 sQ7).get jps_sQ7_isSome).2 = some Err.noPath ↔
      ((jps 32 32 sQ7).get jps_sQ7_isSome).1.pq.pq = [] ∧
      ((jps 32 32 sQ7).get jps_sQ7_isSome).1.goal_cost = WALKABLE) ∧
    ConfigEq sQ7 ((jps 32 32 sQ7).get jps_sQ7_isSome).1 ∧
    PQOk ((jps 32 32 sQ7).get jps_sQ7_isSome).1 := by
  have h := claim7_nopath_iff_exhausted 32 32 sQ7
    ((jps 32 32 sQ7).get jps_sQ7_isSome) pqok_sQ7
    (by with_unfolding_all decide) (Option.some_get jps_sQ7_isSome).symm
  exact ⟨h.1, h.2.2.1, h.2.2.2⟩

end JPS

namespace JPS

set_option maxRecDepth 40000

/-- A pure sequence of classification visits: parents untouched, every
already-classified cost untouched, and every future classification
unchanged. -/
def VisitsOnly (s s' : JPSState) : Prop :=
  s'.parents = s.parents ∧
  (∀ q, s.processed q ≠ UNINITIALIZED → s'.processed q = s.processed q) ∧
  (∀ q, visitVal s' q = visitVal s q)

theorem visitsOnly_refl (s : JPSState) : VisitsOnly s s :=
  ⟨rfl, fun _ _ => rfl, fun _ => rfl⟩

theorem visitsOnly_trans {s₁ s₂ s₃ : JPSState} (h1 : VisitsOnly s₁ s₂)
    (h2 : VisitsOnly s₂ s₃) : VisitsOnly s₁ s₃ := by
  refine ⟨h2.1.trans h1.1, ?_, fun q => (h2.2.2 q).trans (h1.2.2 q)⟩
  intro q hq
  have h12 := h1.2.1 q hq
  have hne2 : s₂.processed q ≠ UNINITIALIZED := by
    rw [h12]
    exact hq
  exact (h2.2.1 q hne2).trans h12

theorem visitsOnly_visit (s : JPSState) (p : Coord) :
    VisitsOnly s (visit_cell s p).2 := by
  refine ⟨(visit_cell_other s p).2.1, ?_, fun q => visitVal_stable s p q⟩
  intro q hq
  by_cases hqp : q = p
  · subst hqp
    simp only [visit_cell, if_neg hq]
  · exact visit_cell_processed_ne s hqp

/-- When every candidate classifies as non-obstacle, the goal filter keeps
the whole list and only performs classification visits. -/
theorem filter_goals_all_ok :
    ∀ (gs : List Coord) (s : JPSState),
    (∀ g ∈ gs, visitVal s g ≠ OBSTACLE) →
    (filter_goals s gs).1 = gs ∧ VisitsOnly s (filter_goals s gs).2 := by
  intro gs
  induction gs with
  | nil =>
    intro s h
    exact ⟨rfl, visitsOnly_refl s⟩
  | cons g rest ih =>
    intro s h
    have hg : ¬ (visit_cell s g).1 = OBSTACLE := h g (List.mem_cons_self g rest)
    obtain ⟨h1, h2⟩ := ih (visit_cell s g).2 (fun g' hg' => by
      rw [visitVal_stable]
      exact h g' (List.mem_cons_of_mem _ hg'))
    simp only [filter_goals]
    rw [if_pos hg]
    exact ⟨by rw [h1], visitsOnly_trans (visitsOnly_visit s g) h2⟩

/-- The running minimum of `min(goal_set, key=visit)` lands on `st` when
`st` has key `0` and every other candidate's key is strictly positive
(plain Walkable, i.e. infinity, or a cached finite cost above `0`). -/
theorem min_goal_go_picks (st : Coord) :
    ∀ (rest : List Coord) (s : JPSState) (best : Coord) (bestKey : PVal),
    visitVal s st = ((0 : ℚ) : PVal) →
    (∀ g ∈ rest, g ≠ st → (0 : PVal) < visitVal s g) →
    ((best = st ∧ bestKey = ((0 : ℚ) : PVal)) ∨
      ((0 : PVal) < bestKey ∧ st ∈ rest)) →
    (min_goal_go s best bestKey rest).1 = st ∧
      VisitsOnly s (min_goal_go s best bestKey rest).2 := by
  intro rest
  induction rest with
  | nil =>
    intro s best bestKey h0 hr hc
    rcases hc with ⟨hb1, -⟩ | ⟨-, hmem⟩
    · exact ⟨hb1, visitsOnly_refl s⟩
    · exact absurd hmem (List.not_mem_nil st)
  | cons g rest ih =>
    intro s best bestKey h0 hr hc
    have h0' : visitVal (visit_cell s g).2 st = ((0 : ℚ) : PVal) := by
      rw [visitVal_stable]
      exact h0
    have hr' : ∀ g' ∈ rest, g' ≠ st →
        (0 : PVal) < visitVal (visit_cell s g).2 g' := by
      intro g' hm hne
      rw [visitVal_stable]
      exact hr g' (List.mem_cons_of_mem _ hm) hne
    simp only [min_goal_go]
    by_cases hgst : g = st
    · have hkey : (visit_cell s g).1 = ((0 : ℚ) : PVal) := by
        rw [show (visit_cell s g).1 = visitVal s g from rfl, hgst, h0]
      rcases hc with ⟨hb1, hb2⟩ | ⟨hb2, -⟩
      · rw [if_neg (by
          rw [hkey, hb2]
          exact lt_irrefl _)]
        obtain ⟨ha, hb⟩ := ih (visit_cell s g).2 best bestKey h0' hr'
          (Or.inl ⟨hb1, hb2⟩)
        exact ⟨ha, visitsOnly_trans (visitsOnly_visit s g) hb⟩
      · rw [if_pos (by
          rw [hkey]
          exact hb2)]
        obtain ⟨ha, hb⟩ := ih (visit_cell s g).2 g (visit_cell s g).1 h0' hr'
          (Or.inl ⟨hgst, hkey⟩)
        exact ⟨ha, visitsOnly_trans (visitsOnly_visit s g) hb⟩
    · have hgpos : (0 : PVal) < visitVal s g :=
        hr g (List.mem_cons_self g rest) hgst
      rcases hc with ⟨hb1, hb2⟩ | ⟨hb2, hmem⟩
      · rw [if_neg (by
          rw [hb2]
          exact not_lt.mpr (le_of_lt hgpos))]
        obtain ⟨ha, hb⟩ := ih (visit_cell s g).2 best bestKey h0' hr'
          (Or.inl ⟨hb1, hb2⟩)
        exact ⟨ha, visitsOnly_trans (visitsOnly_visit s g) hb⟩
      · have hmem' : st ∈ rest := by
          rcases List.mem_cons.mp hmem with h' | h'
          · exact absurd h'.symm hgst
          · exact h'
        by_cases hlt : (visit_cell s g).1 < bestKey
        · rw [if_pos hlt]
          obtain ⟨ha, hb⟩ := ih (visit_cell s g).2 g (visit_cell s g).1 h0' hr'
            (Or.inr ⟨hgpos, hmem'⟩)
          exact ⟨ha, visitsOnly_trans (visitsOnly_visit s g) hb⟩
        · rw [if_neg hlt]
          obtain ⟨ha, hb⟩ := ih (visit_cell s g).2 best bestKey h0' hr'
            (Or.inr ⟨hb2, hmem'⟩)
          exact ⟨ha, visitsOnly_trans (visitsOnly_visit s g) hb⟩

/-- `min(goal_set, key=visit)` picks `st` outright under the same keys. -/
theorem min_goal_picks (s : JPSState) (goals : List Coord) (st : Coord)
    (hmem : st ∈ goals) (h0 : visitVal s st = ((0 : ℚ) : PVal))
    (hr : ∀ g ∈ goals, g ≠ st → (0 : PVal) < visitVal s g) :
    (min_goal s goals).1 = some st ∧ VisitsOnly s (min_goal s goals).2 := by
  cases goals with
  | nil => exact absurd hmem (List.not_mem_nil st)
  | cons g rest =>
    simp only [min_goal]
    have h0' : visitVal (visit_cell s g).2 st = ((0 : ℚ) : PVal) := by
      rw [visitVal_stable]
      exact h0
    have hr' : ∀ g' ∈ rest, g' ≠ st →
        (0 : PVal) < visitVal (visit_cell s g).2 g' := by
      intro g' hm hne
      rw [visitVal_stable]
      exact hr g' (List.mem_cons_of_mem _ hm) hne
    by_cases hgst : g = st
    · have hkey : (visit_cell s g).1 = ((0 : ℚ) : PVal) := by
        rw [show (visit_cell s g).1 = visitVal s g from rfl, hgst, h0]
      obtain ⟨ha, hb⟩ := min_goal_go_picks st rest (visit_cell s g).2 g
        (visit_cell s g).1 h0' hr' (Or.inl ⟨hgst, hkey⟩)
      exact ⟨by rw [ha], visitsOnly_trans (visitsOnly_visit s g) hb⟩
    · have hgpos : (0 : PVal) < visitVal s g :=
        hr g (List.mem_cons_self g rest) hgst
      have hmem' : st ∈ rest := by
        rcases List.mem_cons.mp hmem with h' | h'
        · exact absurd h'.symm hgst
        · exact h'
      obtain ⟨ha, hb⟩ := min_goal_go_picks st rest (visit_cell s g).2 g
        (visit_cell s g).1 h0' hr' (Or.inr ⟨hgpos, hmem'⟩)
      exact ⟨by rw [ha], visitsOnly_trans (visitsOnly_visit s g) hb⟩

/-- C9 (amended): if the start is among the supplied goals with cached cost
`0` and no recorded parent, and every other supplied goal's classification
key is strictly positive — plain Walkable (infinity) or a previously cached
finite cost above `0`, which rules out exactly the Obstacle goals — then
all three public queries answer with the trivial path: `[start]`, full
path `[start]`, length `0`. -/
theorem claim9_start_in_goalset_amended (cf fuel : ℕ) (s : JPSState)
    (goals : List Coord) (st : Coord)
    (hmem : st ∈ goals)
    (hp0 : s.processed st = ((0 : ℚ) : PVal))
    (hpar : s.parents st = none)
    (hg : ∀ g ∈ goals, g ≠ st → (0 : PVal) < visitVal s g) :
    (get_jump_point_path cf (fuel + 1) s goals).map (fun r => r.2) =
      some (.ok [st]) ∧
    (get_full_path cf (fuel + 1) s goals).map (fun r => r.2) =
      some (.ok [st]) ∧
    (get_path_length cf (fuel + 1) s goals).map (fun r => r.2) =
      some (.ok ((0 : ℚ) : PVal)) := by
  have h0 : visitVal s st = ((0 : ℚ) : PVal) := by
    unfold visitVal visit_cell
    rw [hp0]
    rw [if_neg (by with_unfolding_all decide)]
  have hno : ∀ g ∈ goals, visitVal s g ≠ OBSTACLE := by
    intro g hgm
    by_cases hgst : g = st
    · subst hgst
      rw [h0]
      with_unfolding_all decide
    · intro hc
      have hp := hg g hgm hgst
      rw [hc] at hp
      exact absurd hp (by with_unfolding_all decide)
  obtain ⟨hf1, hfV⟩ := filter_goals_all_ok goals s hno
  set sM : JPSState :=
    { (filter_goals s goals).2 with goal_set := (filter_goals s goals).1 }
    with hsM
  have hV1 : VisitsOnly s sM := by
    refine visitsOnly_trans hfV ⟨rfl, fun _ _ => rfl, fun q => ?_⟩
    exact visitVal_congr q rfl rfl rfl
  have h0M : visitVal sM st = ((0 : ℚ) : PVal) := by
    rw [hV1.2.2 st]
    exact h0
  have hrM : ∀ g ∈ goals, g ≠ st → (0 : PVal) < visitVal sM g := by
    intro g hm hne
    rw [hV1.2.2 g]
    exact hg g hm hne
  obtain ⟨hmin1, hminV⟩ := min_goal_picks sM goals st hmem h0M hrM
  rcases hmg : min_goal sM goals with ⟨mo, s2⟩
  rw [hmg] at hmin1 hminV
  have hmo : mo = some st := hmin1
  subst hmo
  have hV2 : VisitsOnly s s2 := visitsOnly_trans hV1 hminV
  have hnu : s.processed st ≠ UNINITIALIZED := by
    rw [hp0]
    with_unfolding_all decide
  have hp2 : s2.processed st = ((0 : ℚ) : PVal) := by
    rw [hV2.2.1 st hnu]
    exact hp0
  have hpar2 : s2.parents st = none := by
    rw [hV2.1]
    exact hpar
  have hfne : ¬ (filter_goals s goals).1 = [] := by
    rw [hf1]
    exact List.ne_nil_of_mem hmem
  have hrec : reconstruct (fuel + 1)
      { s2 with goal := some st, goal_cost := s2.processed st } =
      some [st] := by
    have hstep : recon_go (fuel + 1) s2.parents (some st) [] =
        recon_go fuel s2.parents (s2.parents st) [st] := rfl
    show recon_go (fuel + 1) s2.parents (some st) [] = some [st]
    rw [hstep, hpar2]
    simp only [recon_go]
  have hjp : get_jump_point_path cf (fuel + 1) s goals =
      some ({ s2 with goal := some st, goal_cost := s2.processed st },
        .ok [st]) := by
    simp only [get_jump_point_path]
    rw [if_neg hfne, ← hsM]
    split
    · next sE heq =>
      rw [hmg] at heq
      exact absurd heq (by simp)
    · next m sE heq =>
      rw [hmg] at heq
      obtain ⟨hm, hs⟩ := Prod.mk.injEq .. |>.mp heq
      obtain rfl := Option.some.inj hm
      subst hs
      rw [if_pos (show s2.processed st ≠ WALKABLE by
        rw [hp2]
        with_unfolding_all decide)]
      split
      · next heq2 =>
        rw [hrec] at heq2
        exact absurd heq2 (by simp)
      · next path heq2 =>
        rw [hrec] at heq2
        obtain rfl : [st] = path := Option.some.inj heq2
        rfl
  have hfull : get_full_path cf (fuel + 1) s goals =
      some ({ s2 with goal := some st, goal_cost := s2.processed st },
        .ok [st]) := by
    simp only [get_full_path]
    rw [hjp]
    rfl
  have hlen : get_path_length cf (fuel + 1) s goals =
      some ({ s2 with goal := some st, goal_cost := s2.processed st },
        .ok (s2.processed st)) := by
    simp only [get_path_length]
    rw [hjp]
  refine ⟨by simp only [hjp, Option.map_some'], by simp only [hfull, Option.map_some'], ?_⟩
  simp only [hlen, Option.map_some', hp2]

/-- The tiny-map field after a previous query cached the finite cost `2` at
the walkable goal `(1, 3)`. -/
def s9 : JPSState :=
  { mkS false (707/500) false with
      processed :=
        updf (mkS false (707/500) false).processed (1, 3) ((2 : ℚ) : PVal) }

/-- Witness for the amended C9, exercising a goal with a cached finite
cost: goals `[(1, 3), (1, 1)]` on a field whose cache holds cost `2` at
`(1, 3)`, with the start `(1, 1)` among the goals — the start still wins
the minimum and the trivial path is returned. -/
theorem claim9_start_in_goalset_witness :
    (get_jump_point_path 32 (31 + 1) s9 [(1, 3), (1, 1)]).map
      (fun r => r.2) = some (.ok [(1, 1)]) ∧
    (get_full_path 32 (31 + 1) s9 [(1, 3), (1, 1)]).map
      (fun r => r.2) = some (.ok [(1, 1)]) ∧
    (get_path_length 32 (31 + 1) s9 [(1, 3), (1, 1)]).map
      (fun r => r.2) = some (.ok ((0 : ℚ) : PVal)) := by
  refine claim9_start_in_goalset_amended 32 31 s9
    [(1, 3), (1, 1)] (1, 1) (by with_unfolding_all decide)
    (by with_unfolding_all decide) (by with_unfolding_all decide) ?_
  intro g hgm hgst
  rcases List.mem_cons.mp hgm with rfl | hgm2
  · with_unfolding_all decide
  · rcases List.mem_cons.mp hgm2 with rfl | hgm3
    · exact absurd rfl hgst
    · exact absurd hgm3 (List.not_mem_nil g)

/-- C9 counterexample to the unamended claim: the start `(1, 1)` is walkable
and belongs to the supplied goal set `[(0, 0), (1, 1)]`, yet the returned
jump-point path is `[(0, 0)]`, not `[(1, 1)]` (the obstacle goal wins the
unfiltered minimum). -/
theorem claim9_mixed_goalset_counterexample :
    ((1, 1) : Coord) ∈ [((0, 0) : Coord), (1, 1)] ∧
    walkableOf (mkS false (707/500) false) (1, 1) = true ∧
    (get_jump_point_path 32 32 (mkS false (707/500) false)
        [(0, 0), (1, 1)]).map (fun r => r.2) = some (.ok [(0, 0)]) ∧
    [((0, 0) : Coord)] ≠ [((1, 1) : Coord)] := by
  refine ⟨by decide, by with_unfolding_all decide,
    by with_unfolding_all decide, by decide⟩

end JPS
